import Mathlib

/-!
Shallow embedding of the response-normalization and orchestration core of
the hack-a-gallery repository:

* `agents/src/project_intelligence_agent.py` — JSON extraction from agent
  replies (`_extract_json_from_text`, `_extract_json_from_response`), the
  fallback builder (`_create_fallback_response`) and the reply-handling
  stage of the `analyze_project` entrypoint.
* `backend/app/services/github_validator.py` — URL validation
  (`validate_url`, `_is_valid_github_name`, `_is_valid_repo_name`),
  the rate-limit tracker (`get_rate_limit_info`,
  `_update_rate_limit_cache`) and `check_repository_exists`.
* `backend/app/services/cache.py` — the TTL cache (`AnalysisCache`).
* `backend/app/services/orchestrator.py` — the workflow orchestrator.

Python dicts are modelled as association lists without duplicate keys,
timestamps as integers (seconds), `json.loads` as a recursive-descent
parser of the standard JSON grammar, and network calls as explicit
outcome parameters.
-/

/-- ASCII alphanumeric test, the `[a-zA-Z0-9]` character class of the
validator's regular expressions. -/
def isAlnumAscii (c : Char) : Bool :=
  ('a' ≤ c && c ≤ 'z') || ('A' ≤ c && c ≤ 'Z') || ('0' ≤ c && c ≤ '9')

/-- The `[a-zA-Z0-9._-]` character class used for owner/repo segments. -/
def isNameChar (c : Char) : Bool :=
  isAlnumAscii c || c = '.' || c = '_' || c = '-'

/-- JSON whitespace as accepted by `json.loads` between tokens. -/
def isJsonWs (c : Char) : Bool :=
  c = ' ' || c = '\t' || c = '\n' || c = '\r'

/-- Python regex `\s` class (ASCII part), used by the fenced-block regex. -/
def isPyWs (c : Char) : Bool :=
  c = ' ' || c = '\t' || c = '\n' || c = '\r' || c = '\x0b' || c = '\x0c'

/-- Whitespace stripped by Python's `str.strip()` (ASCII part). -/
def isPyStripWs (c : Char) : Bool :=
  c = ' ' || c = '\t' || c = '\n' || c = '\r' || c = '\x0b' || c = '\x0c'

/-- Model of Python's `str.strip()`: drop whitespace from both ends. -/
def pyStrip (cs : List Char) : List Char :=
  ((cs.dropWhile isPyStripWs).reverse.dropWhile isPyStripWs).reverse

/-- Lookup in a Python dict modelled as an association list
(first binding wins; real dicts have unique keys). -/
def dictLookup {α : Type} : List (String × α) → String → Option α
  | [], _ => none
  | (k', v) :: rest, k => if k' = k then some v else dictLookup rest k

/-- Python dict assignment `d[k] = v`: replace the existing binding
in place, or append a new one. -/
def dictSet {α : Type} : List (String × α) → String → α → List (String × α)
  | [], k, v => [(k, v)]
  | (k', v') :: rest, k, v =>
    if k' = k then (k, v) :: rest else (k', v') :: dictSet rest k v

/-- Python `del d[k]`: remove the (unique) binding for `k`. -/
def dictDel {α : Type} : List (String × α) → String → List (String × α)
  | [], _ => []
  | (k', v') :: rest, k => if k' = k then rest else (k', v') :: dictDel rest k

/-- JSON values, also used to model the Python values
(`None`/`bool`/number/`str`/`list`/`dict`) an agent reply can be.
A number is `m * 10 ^ e` (so `0.5` is `num 5 (-1)`). -/
inductive Json where
  | null : Json
  | bool (b : Bool) : Json
  | num (m : Int) (e : Int) : Json
  | str (s : String) : Json
  | arr (xs : List Json) : Json
  | obj (fields : List (String × Json)) : Json

/-- Exceptions that the embedded agent code can raise while handling a
reply: `json.JSONDecodeError` from `json.loads`, and `TypeError` from
`str` concatenation. -/
inductive PyError where
  | jsonDecodeError (msg : String) : PyError
  | typeError (msg : String) : PyError

/-- Numeric value of a decimal digit character. -/
def digitVal (c : Char) : Nat := c.toNat - 48

/-- Fold a digit list into a natural number. -/
def digitsToNat (ds : List Char) : Nat :=
  ds.foldl (fun a c => a * 10 + digitVal c) 0

/-- Hex digit value for `\uXXXX` escapes. -/
def hexVal (c : Char) : Option Nat :=
  if '0' ≤ c && c ≤ '9' then some (c.toNat - 48)
  else if 'a' ≤ c && c ≤ 'f' then some (c.toNat - 87)
  else if 'A' ≤ c && c ≤ 'F' then some (c.toNat - 55)
  else none

/-- Simple escapes of JSON string literals. -/
def escChar (c : Char) : Option Char :=
  if c = '"' then some '"'
  else if c = '\\' then some '\\'
  else if c = '/' then some '/'
  else if c = 'b' then some '\x08'
  else if c = 'f' then some '\x0c'
  else if c = 'n' then some '\n'
  else if c = 'r' then some '\r'
  else if c = 't' then some '\t'
  else none

/-- Parse the body of a JSON string literal (after the opening quote),
returning the decoded content and the remainder after the closing quote.
Raw control characters are rejected as `json.loads` does. -/
def parseStringBody : List Char → Option (List Char × List Char)
  | [] => none
  | '"' :: rest => some ([], rest)
  | '\\' :: 'u' :: a :: b :: c :: d :: rest =>
    match hexVal a, hexVal b, hexVal c, hexVal d with
    | some ha, some hb, some hc, some hd =>
      (parseStringBody rest).map
        (fun p => (Char.ofNat (((ha * 16 + hb) * 16 + hc) * 16 + hd) :: p.1, p.2))
    | _, _, _, _ => none
  | '\\' :: e :: rest =>
    match escChar e with
    | some c => (parseStringBody rest).map (fun p => (c :: p.1, p.2))
    | none => none
  | c :: rest =>
    if c.toNat < 32 then none
    else (parseStringBody rest).map (fun p => (c :: p.1, p.2))

/-- Skip JSON whitespace. -/
def skipWs (cs : List Char) : List Char := cs.dropWhile isJsonWs

/-- Parse a JSON number starting at `cs` (standard JSON grammar:
optional minus, integer part without leading zeros, optional fraction,
optional exponent). -/
def parseNumber (cs : List Char) : Option (Json × List Char) :=
  let (neg, cs1) := match cs with
    | '-' :: r => (true, r)
    | _ => (false, cs)
  let intDs := cs1.takeWhile Char.isDigit
  let r1 := cs1.dropWhile Char.isDigit
  if intDs = [] then none
  else if 1 < intDs.length && intDs.head? = some '0' then none
  else
    let fracStep : Option (List Char × List Char) := match r1 with
      | '.' :: r =>
        let ds := r.takeWhile Char.isDigit
        if ds = [] then none else some (ds, r.dropWhile Char.isDigit)
      | _ => some ([], r1)
    match fracStep with
    | none => none
    | some (fracDs, r2) =>
      let expStep : Option (Int × List Char) := match r2 with
        | 'e' :: r => parseExpTail r
        | 'E' :: r => parseExpTail r
        | _ => some (0, r2)
      match expStep with
      | none => none
      | some (expv, r3) =>
        let mag : Nat := digitsToNat (intDs ++ fracDs)
        let m : Int := if neg then -(mag : Int) else (mag : Int)
        some (Json.num m (expv - fracDs.length), r3)
where
  /-- Parse the signed digit tail of an exponent. -/
  parseExpTail (r : List Char) : Option (Int × List Char) :=
    let (esign, r') := match r with
      | '+' :: t => ((1 : Int), t)
      | '-' :: t => ((-1 : Int), t)
      | _ => ((1 : Int), r)
    let eds := r'.takeWhile Char.isDigit
    if eds = [] then none
    else some (esign * digitsToNat eds, r'.dropWhile Char.isDigit)

mutual

/-- Fueled recursive-descent parser for a JSON value; `cs` starts at a
non-whitespace position. Returns the value and the unconsumed remainder. -/
def parseValue : Nat → List Char → Option (Json × List Char)
  | 0, _ => none
  | _ + 1, 'n' :: 'u' :: 'l' :: 'l' :: rest => some (Json.null, rest)
  | _ + 1, 't' :: 'r' :: 'u' :: 'e' :: rest => some (Json.bool true, rest)
  | _ + 1, 'f' :: 'a' :: 'l' :: 's' :: 'e' :: rest => some (Json.bool false, rest)
  | _ + 1, '"' :: rest => (parseStringBody rest).map (fun p => (Json.str ⟨p.1⟩, p.2))
  | fuel + 1, '[' :: rest =>
    (match skipWs rest with
     | ']' :: r2 => some (Json.arr [], r2)
     | cs2 => parseElems fuel cs2 [])
  | fuel + 1, '\x7b' :: rest =>
    (match skipWs rest with
     | '\x7d' :: r2 => some (Json.obj [], r2)
     | cs2 => parseMembers fuel cs2 [])
  | _ + 1, cs => parseNumber cs

/-- Parse the comma-separated elements of a non-empty JSON array. -/
def parseElems : Nat → List Char → List Json → Option (Json × List Char)
  | 0, _, _ => none
  | fuel + 1, cs, acc =>
    match parseValue fuel cs with
    | none => none
    | some (v, rest) =>
      match skipWs rest with
      | ',' :: r2 => parseElems fuel (skipWs r2) (acc ++ [v])
      | ']' :: r2 => some (Json.arr (acc ++ [v]), r2)
      | _ => none

/-- Parse the members of a non-empty JSON object. -/
def parseMembers : Nat → List Char → List (String × Json) → Option (Json × List Char)
  | 0, _, _ => none
  | fuel + 1, cs, acc =>
    match cs with
    | '"' :: rest =>
      (match parseStringBody rest with
       | none => none
       | some (k, r2) =>
         match skipWs r2 with
         | ':' :: r3 =>
           (match parseValue fuel (skipWs r3) with
            | none => none
            | some (v, r4) =>
              match skipWs r4 with
              | ',' :: r5 => parseMembers fuel (skipWs r5) (acc ++ [(⟨k⟩, v)])
              | '\x7d' :: r5 => some (Json.obj (acc ++ [(⟨k⟩, v)]), r5)
              | _ => none)
         | _ => none)
    | _ => none

end

/-- Model of `json.loads` on a character list: parse one JSON value,
allowing surrounding whitespace, and reject trailing data. -/
def jsonLoads (cs : List Char) : Except PyError Json :=
  match parseValue (cs.length * 4 + 16) (skipWs cs) with
  | some (v, rest) =>
    if skipWs rest = [] then Except.ok v
    else Except.error (PyError.jsonDecodeError "Extra data")
  | none => Except.error (PyError.jsonDecodeError "Expecting value")

/-! ## Response extraction (`_extract_json_from_text`) -/

/-- One step of the literal-prefix tests used by the embedded regex
matchers: if `lit` is a prefix of `cs`, return the remainder. -/
def dropLit (lit : String) (cs : List Char) : Option (List Char) :=
  if lit.toList.isPrefixOf cs then some (cs.drop lit.length) else none

/-- The brace-counting loop of `_extract_json_from_text` (strategy 2),
started at the first `{` of the text with count 0.  Mirrors the Python
loop: `{` increments, `}` decrements and the scan stops the first time
the count returns to zero.  Returns the consumed candidate substring
(`text[start_idx:end_idx]`) together with the unread remainder, or
`none` when the count never returns to zero. -/
def braceScanSplit : List Char → Int → Option (List Char × List Char)
  | [], _ => none
  | c :: rest, count =>
    if c = '\x7b' then
      (braceScanSplit rest (count + 1)).map (fun p => (c :: p.1, p.2))
    else if c = '\x7d' then
      if count - 1 = 0 then some ([c], rest)
      else (braceScanSplit rest (count - 1)).map (fun p => (c :: p.1, p.2))
    else (braceScanSplit rest count).map (fun p => (c :: p.1, p.2))

/-- Strategy 2 of `_extract_json_from_text`: find the first `{`
(`text.find("{")`), then run the brace-counting scan; the candidate is
`text[start_idx:end_idx]` when the count returned to zero. -/
def braceCandidate (text : List Char) : Option (List Char) :=
  match braceScanSplit (text.dropWhile (fun c => c ≠ '\x7b')) 0 with
  | some (cand, _) => some cand
  | none => none

/-- Inner scan of the fenced-block regex ````json\s*(\{.*?\})\s*``` `:
starting inside the group, find the earliest `}` that is followed by
optional whitespace and a closing ` ``` ` fence (the non-greedy `.*?`).
`acc` holds the group characters consumed so far, reversed. -/
def findGroupEnd : List Char → List Char → Option (List Char)
  | [], _ => none
  | c :: rest, acc =>
    if c = '\x7d' && "\x60\x60\x60".toList.isPrefixOf (rest.dropWhile isPyWs) then
      some (c :: acc).reverse
    else findGroupEnd rest (c :: acc)

/-- Try to match the fenced-block regex at the current position: the
literal ````json `, then `\s*`, then a group starting with `{`. -/
def matchFenceAt (cs : List Char) : Option (List Char) :=
  match dropLit "\x60\x60\x60json" cs with
  | none => none
  | some after =>
    match after.dropWhile isPyWs with
    | '\x7b' :: body => findGroupEnd ('\x7b' :: body) []
    | _ => none

/-- Strategy 1 of `_extract_json_from_text`:
`re.search(r"```json\s*(\{.*?\})\s*```", text, re.DOTALL)` — try the
fence match at each position, leftmost first, and return the group. -/
def fencedCandidate : List Char → Option (List Char)
  | [] => none
  | c :: rest =>
    match matchFenceAt (c :: rest) with
    | some g => some g
    | none => fencedCandidate rest

/-- `_extract_json_from_text`: try the fenced code block, then the
brace-counting scan, then the whole text.  Note that when a strategy
produces a candidate, its `json.loads` result — success *or* failure —
is returned directly: a parse error propagates as the Python exception
does, without trying the remaining strategies. -/
def extractJsonFromText (text : List Char) : Except PyError Json :=
  match fencedCandidate text with
  | some cand => jsonLoads cand
  | none =>
    match braceCandidate text with
    | some cand => jsonLoads cand
    | none => jsonLoads text

/-! ## Reply-level extraction, fallback, and the `analyze_project`
reply-handling stage -/

mutual

/-- Python `repr` of a JSON-shaped Python value (used by `str` on
containers).  String escaping inside `repr` is not modelled; it is
irrelevant to the claims, which never constrain the rendered text. -/
def pyRepr : Json → String
  | Json.null => "None"
  | Json.bool true => "True"
  | Json.bool false => "False"
  | Json.num m e => if e = 0 then toString m else toString m ++ "e" ++ toString e
  | Json.str s => "'" ++ s ++ "'"
  | Json.arr xs => "[" ++ pyReprList xs ++ "]"
  | Json.obj fields => "\x7b" ++ pyReprFields fields ++ "\x7d"

/-- Comma-separated `repr`s of list elements. -/
def pyReprList : List Json → String
  | [] => ""
  | [x] => pyRepr x
  | x :: y :: rest => pyRepr x ++ ", " ++ pyReprList (y :: rest)

/-- Comma-separated `repr`s of dict items. -/
def pyReprFields : List (String × Json) → String
  | [] => ""
  | [(k, v)] => "'" ++ k ++ "': " ++ pyRepr v
  | (k, v) :: p :: rest => "'" ++ k ++ "': " ++ pyRepr v ++ ", " ++ pyReprFields (p :: rest)

end

/-- Python `str` of a JSON-shaped value: a string renders as itself,
anything else via `repr`. -/
def pyStr (j : Json) : String :=
  match j with
  | Json.str s => s
  | other => pyRepr other

/-- The text-concatenation loop of `_extract_json_from_response` over a
`content` array: for each dict item carrying a `"text"` key, append the
string.  A non-string `"text"` value makes the Python `+=` raise
`TypeError`. -/
def concatContentTexts (items : List Json) : Except PyError String :=
  items.foldl
    (fun acc it =>
      match acc with
      | Except.error e => Except.error e
      | Except.ok s =>
        match it with
        | Json.obj f =>
          (match dictLookup f "text" with
           | some (Json.str t) => Except.ok (s ++ t)
           | some _ => Except.error (PyError.typeError "can only concatenate str (not \"other\") to str")
           | none => Except.ok s)
        | _ => Except.ok s)
    (Except.ok "")

/-- `_extract_json_from_response`: dict replies with a `content` list
concatenate their text fragments and defer to the text extractor; other
dicts are returned as-is; strings go to the text extractor; anything
else is `json.loads(str(raw_message))`. -/
def extractJsonFromResponse (raw : Json) : Except PyError Json :=
  match raw with
  | Json.obj fields =>
    (match dictLookup fields "content" with
     | some (Json.arr items) =>
       (match concatContentTexts items with
        | Except.ok text => extractJsonFromText text.data
        | Except.error e => Except.error e)
     | _ => Except.ok (Json.obj fields))
  | Json.str s => extractJsonFromText s.data
  | other => jsonLoads (pyStr other).data

/-- `_create_fallback_response(owner, repo, raw_message)`: the fixed
fallback analysis dict. -/
def createFallbackResponse (owner repo rawMessage : String) : Json :=
  Json.obj
    [("summary", Json.str rawMessage),
     ("tech_stack", Json.arr []),
     ("key_features", Json.arr []),
     ("tags", Json.arr []),
     ("metadata", Json.obj
       [("repository_owner", Json.str owner),
        ("repository_name", Json.str repo),
        ("primary_language", Json.str "Unknown"),
        ("language_distribution", Json.obj []),
        ("star_count", Json.num 0 0),
        ("fork_count", Json.num 0 0),
        ("last_updated", Json.str ""),
        ("has_readme", Json.bool false),
        ("has_tests", Json.bool false),
        ("has_ci", Json.bool false)]),
     ("confidence_score", Json.num 5 (-1))]

/-- Field access on a JSON object. -/
def jsonField (j : Json) (k : String) : Option Json :=
  match j with
  | Json.obj fields => dictLookup fields k
  | _ => none

/-- The warning attached on the fallback path of `analyze_project`. -/
def fallbackWarning : String := "Response was not in expected JSON format"

/-- The fields of the `analyze_project` return value that the
reply-handling stage determines. -/
structure AnalyzeOutcome where
  status : String
  analysis : Option Json
  warning : Option String
  error : Option String

/-- The reply-handling stage of `analyze_project` (the `try` block
around `_extract_json_from_response` and its `except` clauses): a
successful extraction to a dict returns `status="completed"` with the
analysis; a `json.JSONDecodeError` — or the `AttributeError` from
calling `.get` on a non-dict extraction result in the logging call — is
caught and answered with `status="completed"`, the fallback response
built from `str(result.message)` and the fixed warning; a `TypeError`
from the content concatenation is *not* in the caught tuple and falls
through to the outer handler, which returns `status="failed"`. -/
def handleAgentReply (owner repo : String) (message : Json) : AnalyzeOutcome :=
  match extractJsonFromResponse message with
  | Except.ok (Json.obj fields) => ⟨"completed", some (Json.obj fields), none, none⟩
  | Except.ok _ =>
    ⟨"completed", some (createFallbackResponse owner repo (pyStr message)),
      some fallbackWarning, none⟩
  | Except.error (PyError.jsonDecodeError _) =>
    ⟨"completed", some (createFallbackResponse owner repo (pyStr message)),
      some fallbackWarning, none⟩
  | Except.error (PyError.typeError m) =>
    ⟨"failed", none, none, some ("Unexpected error during analysis: " ++ m)⟩

/-- Does extraction succeed with a JSON object? -/
def isOkObj : Except PyError Json → Bool
  | Except.ok (Json.obj _) => true
  | _ => false

/-- Did extraction raise a `TypeError`? -/
def isTypeErrorResult : Except PyError Json → Bool
  | Except.error (PyError.typeError _) => true
  | _ => false

/-! ## URL validator (`github_validator.py`) -/

/-- Result type of `GitHubValidator.validate_url` (the `ValidationResult`
named tuple). -/
structure ValidationResult where
  is_valid : Bool
  owner : Option String := none
  repo : Option String := none
  error_message : Option String := none

/-- Tail of the username regex
`^[a-zA-Z0-9](?:[a-zA-Z0-9]|-(?=[a-zA-Z0-9])){0,38}$` after its first
character: each later character is alphanumeric, or a hyphen whose
lookahead requires the next character to be alphanumeric (so hyphens are
single and never trailing). -/
def validNameTail : List Char → Bool
  | [] => true
  | c :: rest =>
    if c = '-' then
      match rest with
      | [] => false
      | c2 :: rest2 => isAlnumAscii c2 && validNameTail (c2 :: rest2)
    else isAlnumAscii c && validNameTail rest

/-- `GitHubValidator._is_valid_github_name`: non-empty, at most 39
characters, and matching the username regex. -/
def is_valid_github_name (name : List Char) : Bool :=
  !name.isEmpty && name.length ≤ 39 &&
    (match name with
     | [] => false
     | c :: rest => isAlnumAscii c && validNameTail rest)

/-- `GitHubValidator._is_valid_repo_name`: non-empty, at most 100
characters, and matching `^[a-zA-Z0-9][a-zA-Z0-9._-]*$`. -/
def is_valid_repo_name (name : List Char) : Bool :=
  !name.isEmpty && name.length ≤ 100 &&
    (match name with
     | [] => false
     | c :: rest => isAlnumAscii c && rest.all isNameChar)

/-- The `(?:www\.)?github\.com/` part of the URL regex after the
scheme: the optional `www.` resolves deterministically because `w` and
`g` differ. -/
def stripAfterScheme (afterScheme : List Char) : Option (List Char) :=
  match dropLit "www." afterScheme with
  | some afterWww => dropLit "github.com/" afterWww
  | none => dropLit "github.com/" afterScheme

/-- The `https?://(?:www\.)?github\.com/` prefix of the URL regex:
consume the scheme (the optional `s` resolves deterministically because
`s` and `:` differ), then the rest of the host prefix. -/
def stripGithubPrefix (cs : List Char) : Option (List Char) :=
  match dropLit "https://" cs with
  | some afterScheme => stripAfterScheme afterScheme
  | none =>
    match dropLit "http://" cs with
    | some afterScheme => stripAfterScheme afterScheme
    | none => none

/-- The `/([a-zA-Z0-9][a-zA-Z0-9._-]*)/?$` half of the path: given the
repo-segment run and what follows it, accept only an alphanumeric-led
run followed by nothing or a single `/`. -/
def splitRepo (owner : List Char) : List Char → List Char → Option (List Char × List Char)
  | [], _ => none
  | rc :: r', rest4 =>
    if isAlnumAscii rc then
      match rest4 with
      | [] => some (owner, rc :: r')
      | ['/'] => some (owner, rc :: r')
      | _ => none
    else none

/-- The `([a-zA-Z0-9][a-zA-Z0-9._-]*)/...` half of the path: given the
owner-segment run and what follows it, require an alphanumeric-led run,
then a `/`, then the repo half. -/
def splitOwner : List Char → List Char → Option (List Char × List Char)
  | [], _ => none
  | oc :: o', rest2 =>
    if isAlnumAscii oc then
      match rest2 with
      | '/' :: rest3 =>
        splitRepo (oc :: o') (rest3.takeWhile isNameChar) (rest3.dropWhile isNameChar)
      | _ => none
    else none

/-- The `([a-zA-Z0-9][a-zA-Z0-9._-]*)/([a-zA-Z0-9][a-zA-Z0-9._-]*)/?$`
part: the character classes exclude `/`, so each group is forced to be
the maximal run of name characters, with no backtracking choice. -/
def matchOwnerRepo (rest : List Char) : Option (List Char × List Char) :=
  splitOwner (rest.takeWhile isNameChar) (rest.dropWhile isNameChar)

/-- Deterministic matcher for the anchored URL regex
`^https?://(?:www\.)?github\.com/([a-zA-Z0-9][a-zA-Z0-9._-]*)/([a-zA-Z0-9][a-zA-Z0-9._-]*)/?$`
(Python `re.match`; the match is over the whole stripped string — the
stripped string never ends in a newline, so `$` is end-of-string). -/
def matchGithubUrl (cs : List Char) : Option (List Char × List Char) :=
  match stripGithubPrefix cs with
  | none => none
  | some rest => matchOwnerRepo rest

/-- `GitHubValidator.validate_url`: empty input is rejected, the input
is stripped, matched against the URL pattern, and the owner and repo
are then re-validated individually with a field-specific message. -/
def validate_url (url : String) : ValidationResult :=
  if url.data = [] then
    ⟨false, none, none, some "URL must be a non-empty string"⟩
  else
    let cs := pyStrip url.data
    match matchGithubUrl cs with
    | none =>
      ⟨false, none, none,
        some "Invalid GitHub URL format. Expected: https://github.com/owner/repo"⟩
    | some (owner, repo) =>
      if !is_valid_github_name owner then
        ⟨false, none, none, some ("Invalid GitHub username: " ++ ⟨owner⟩)⟩
      else if !is_valid_repo_name repo then
        ⟨false, none, none, some ("Invalid GitHub repository name: " ++ ⟨repo⟩)⟩
      else
        ⟨true, some ⟨owner⟩, some ⟨repo⟩, none⟩

/-! ## Rate-limit tracker and `check_repository_exists` -/

/-- `RateLimitInfo` (pydantic model in `github_validator.py`). -/
structure RateLimitInfo where
  is_limited : Bool
  reset_time : Option Int := none
  remaining : Int := 0
  limit : Int := 0

/-- The mutable rate-limit state of a `GitHubValidator` instance:
`_rate_limit_cache` and `_cache_expiry`. -/
structure ValidatorState where
  rateLimitCache : Option RateLimitInfo
  cacheExpiry : Option Int

/-- Outcome of the `GET /rate_limit` probe issued by
`get_rate_limit_info` when the cache is stale. -/
inductive RateProbe where
  | probeOk (remaining limit reset : Int) : RateProbe
  | probeBadStatus (headers : Option (Int × Int × Int)) : RateProbe
  | probeExn : RateProbe

/-- `GitHubValidator._get_rate_limit_from_headers`: best-effort parse of
the `x-ratelimit-*` headers (modelled, defaults already applied, as
`some (remaining, limit, reset)`, or `none` for a `ValueError`), falling
back to the conservative non-limited estimate. -/
def getRateLimitFromHeaders (headers : Option (Int × Int × Int)) : RateLimitInfo :=
  match headers with
  | none => ⟨false, none, 1000, 5000⟩
  | some (remaining, limit, reset) =>
    let isLim := remaining ≤ 0
    ⟨isLim, if isLim then (if reset ≠ 0 then some reset else none) else none,
      remaining, limit⟩

/-- `GitHubValidator.get_rate_limit_info`: return the cached info while
it is fresh; otherwise probe `GET /rate_limit`.  A 200 parses
`resources.core`, sets `is_limited = remaining <= 0` and caches for 60
seconds; a non-200 falls back to header-based detection (uncached); an
exception yields the conservative non-limited estimate (uncached). -/
def get_rate_limit_info (st : ValidatorState) (now : Int) (probe : RateProbe) :
    RateLimitInfo × ValidatorState :=
  match st.rateLimitCache, st.cacheExpiry with
  | some info, some expiry =>
    if now < expiry then (info, st)
    else get_rate_limit_info_probe st now probe
  | _, _ => get_rate_limit_info_probe st now probe
where
  /-- The probe branch of `get_rate_limit_info`. -/
  get_rate_limit_info_probe (st : ValidatorState) (now : Int) (probe : RateProbe) :
      RateLimitInfo × ValidatorState :=
    match probe with
    | RateProbe.probeOk remaining limit reset =>
      let info : RateLimitInfo := ⟨remaining ≤ 0, some reset, remaining, limit⟩
      (info, ⟨some info, some (now + 60)⟩)
    | RateProbe.probeBadStatus headers => (getRateLimitFromHeaders headers, st)
    | RateProbe.probeExn => (⟨false, none, 1000, 5000⟩, st)

/-- `GitHubValidator._update_rate_limit_cache`: passive update from
response headers; a header parse failure (`ValueError`) is swallowed and
leaves the cache untouched; otherwise the cache is refreshed with
`is_limited = remaining <= 0` and a fresh 60-second expiry. -/
def update_rate_limit_cache (st : ValidatorState) (now : Int)
    (headers : Option (Int × Int × Int)) : ValidatorState :=
  match headers with
  | none => st
  | some (remaining, limit, reset) =>
    let isLim := remaining ≤ 0
    ⟨some ⟨isLim, if isLim then (if reset ≠ 0 then some reset else none) else none,
        remaining, limit⟩,
      some (now + 60)⟩

/-- `GitHubValidator.is_rate_limited`: cache-only synchronous read. -/
def is_rate_limited (st : ValidatorState) (now : Int) : Bool × Option Int :=
  match st.rateLimitCache, st.cacheExpiry with
  | some info, some expiry =>
    if now < expiry then (info.is_limited, info.reset_time) else (false, none)
  | _, _ => (false, none)

/-- Outcome of the `GET /repos/{owner}/{repo}` existence probe. -/
inductive ProbeResult where
  | response (status : Nat) (bodyHasRateLimit : Bool)
      (headers : Option (Int × Int × Int)) : ProbeResult
  | timeout : ProbeResult
  | networkError (msg : String) : ProbeResult

/-- The error kinds `check_repository_exists` can raise (the Python code
raises `Exception` with distinct messages). -/
inductive CheckError where
  | rateLimitedPre (reset : Option Int) : CheckError
  | rateLimited403 : CheckError
  | apiError (status : Nat) : CheckError
  | timeoutError : CheckError
  | networkErr (msg : String) : CheckError

/-- `GitHubValidator.check_repository_exists`: consult the rate-limit
tracker first and fail fast when limited; otherwise classify the single
existence probe.  Every received response first feeds its headers back
into the rate-limit cache. -/
def check_repository_exists (st : ValidatorState) (now : Int)
    (rateProbe : RateProbe) (probe : ProbeResult) :
    Except CheckError Bool × ValidatorState :=
  let (info, st1) := get_rate_limit_info st now rateProbe
  if info.is_limited then
    (Except.error (CheckError.rateLimitedPre info.reset_time), st1)
  else
    match probe with
    | ProbeResult.timeout => (Except.error CheckError.timeoutError, st1)
    | ProbeResult.networkError m => (Except.error (CheckError.networkErr m), st1)
    | ProbeResult.response status bodyHasRateLimit headers =>
      let st2 := update_rate_limit_cache st1 now headers
      if status = 200 then (Except.ok true, st2)
      else if status = 404 then (Except.ok false, st2)
      else if status = 403 then
        (if bodyHasRateLimit then (Except.error CheckError.rateLimited403, st2)
         else (Except.ok false, st2))
      else (Except.error (CheckError.apiError status), st2)

/-! ## Expiring cache (`cache.py`) -/

/-- The `AnalysisCache._cache` dict: key to `(value, timestamp)`. -/
def CacheState := List (String × Json × Int)

/-- `AnalysisCache.get`: a hit is returned while fresh; an entry older
than the TTL is deleted and `None` is returned. -/
def cacheGet (ttl : Nat) (st : CacheState) (key : String) (now : Int) :
    Option Json × CacheState :=
  match dictLookup st key with
  | none => (none, st)
  | some (v, ts) =>
    if now - ts > (ttl : Int) then (none, dictDel st key) else (some v, st)

/-- `AnalysisCache.set`: store the value with the current timestamp. -/
def cacheSet (st : CacheState) (key : String) (v : Json) (now : Int) : CacheState :=
  dictSet st key (v, now)

/-! ## Workflow orchestrator (`orchestrator.py`) -/

/-- An `AgentTask` (pydantic model in `models.py`). -/
structure AgentTask where
  agent_name : String
  input_data : List (String × Json)
  depends_on : List String

/-- The three `workflow_type` values of a `WorkflowRequest`. -/
inductive WorkflowType where
  | sequential : WorkflowType
  | parallel : WorkflowType
  | conditional : WorkflowType

/-- Helper for the termination of the grouping loop: when the filter
keeps at least one element, the complementary filter is strictly
shorter than the list. -/
theorem length_filter_not_lt {α : Type} (p : α → Bool) (l : List α)
    (h : l.filter p ≠ []) : (l.filter (fun x => !(p x))).length < l.length := by
  induction l with
  | nil => exact absurd rfl h
  | cons a t ih =>
    by_cases hpa : p a = true
    · simp only [List.filter_cons, hpa, Bool.not_true, List.length_cons]
      exact Nat.lt_succ_of_le (List.length_filter_le _ t)
    · rw [Bool.not_eq_true] at hpa
      simp only [List.filter_cons, hpa, Bool.not_false, List.length_cons, if_true,
        Bool.false_eq_true, if_false] at h ⊢
      exact Nat.succ_lt_succ (ih h)

/-- `AgentOrchestrator._group_by_dependencies`: repeatedly take the
tasks whose dependencies are all in `completed`; raise the
circular-dependency error when tasks remain but none is ready.
(`remaining.remove(task)` over the current group is modelled as the
complementary filter, the two agreeing because a Python list of distinct
tasks loses exactly the grouped elements.) -/
def groupByDepsAux (remaining : List AgentTask) (completed : List String) :
    Except String (List (List AgentTask)) :=
  if remaining.isEmpty then Except.ok []
  else if hg : (remaining.filter
      (fun t => t.depends_on.all (fun d => decide (d ∈ completed)))).isEmpty then
    Except.error "Circular dependency detected in workflow"
  else
    match groupByDepsAux
        (remaining.filter (fun t => !(t.depends_on.all (fun d => decide (d ∈ completed)))))
        (completed ++ (remaining.filter
          (fun t => t.depends_on.all (fun d => decide (d ∈ completed)))).map (·.agent_name)) with
    | Except.ok gs =>
      Except.ok ((remaining.filter (fun t => t.depends_on.all (fun d => decide (d ∈ completed)))) :: gs)
    | Except.error e => Except.error e
termination_by remaining.length
decreasing_by
  simp_wf
  apply length_filter_not_lt
  intro hnil
  rw [hnil] at hg
  exact hg rfl

/-- `_group_by_dependencies` starts with nothing completed. -/
def group_by_dependencies (tasks : List AgentTask) : Except String (List (List AgentTask)) :=
  groupByDepsAux tasks []

/-- `AgentOrchestrator._resolve_dependencies`: merge each completed
dependency's result into a *copy* of the task's `input_data`
(`task.input_data.copy()`), under the key `f"{dep}_result"`. -/
def resolveDependencies (task : AgentTask) (results : List (String × Json)) :
    List (String × Json) :=
  task.depends_on.foldl
    (fun acc dep =>
      match dictLookup results dep with
      | some r => dictSet acc (dep ++ "_result") r
      | none => acc)
    task.input_data

/-- A record of the agent invocations performed: agent name together
with the exact `input_data` mapping passed to `invoke_agent`. -/
abbrev InvocationTrace := List (String × List (String × Json))

/-- `AgentOrchestrator._execute_sequential`, with the opaque
`client.invoke_agent` supplied as `invoke` and the performed invocations
recorded. -/
def executeSequentialAux (invoke : String → List (String × Json) → Json) :
    List AgentTask → List (String × Json) → List (String × Json) × InvocationTrace
  | [], results => (results, [])
  | task :: rest, results =>
    let input := resolveDependencies task results
    let r := invoke task.agent_name input
    let next := executeSequentialAux invoke rest (dictSet results task.agent_name r)
    (next.1, (task.agent_name, input) :: next.2)

/-- `AgentOrchestrator._execute_conditional`: like sequential, but a
task whose dependencies are not all present in `results` is skipped. -/
def executeConditionalAux (invoke : String → List (String × Json) → Json) :
    List AgentTask → List (String × Json) → List (String × Json) × InvocationTrace
  | [], results => (results, [])
  | task :: rest, results =>
    if task.depends_on.all (fun d => (dictLookup results d).isSome) then
      let input := resolveDependencies task results
      let r := invoke task.agent_name input
      let next := executeConditionalAux invoke rest (dictSet results task.agent_name r)
      (next.1, (task.agent_name, input) :: next.2)
    else executeConditionalAux invoke rest results

/-- The wave loop of `AgentOrchestrator._execute_parallel`: within a
wave every task resolves its input against the results of the previous
waves (the shared dict is only written after `asyncio.gather` returns),
then all results are merged. -/
def executeGroupsAux (invoke : String → List (String × Json) → Json) :
    List (List AgentTask) → List (String × Json) → List (String × Json) × InvocationTrace
  | [], results => (results, [])
  | g :: gs, results =>
    let pairs := g.map (fun t => (t.agent_name, resolveDependencies t results))
    let merged := pairs.foldl (fun acc p => dictSet acc p.1 (invoke p.1 p.2)) results
    let next := executeGroupsAux invoke gs merged
    (next.1, pairs ++ next.2)

/-- `AgentOrchestrator.execute_workflow` restricted to what the claims
observe: the results dict and the invocation trace (total time and
execution order are presentation plumbing). -/
def executeWorkflow (wt : WorkflowType) (invoke : String → List (String × Json) → Json)
    (tasks : List AgentTask) :
    Except String (List (String × Json) × InvocationTrace) :=
  match wt with
  | WorkflowType.sequential => Except.ok (executeSequentialAux invoke tasks [])
  | WorkflowType.parallel =>
    (match group_by_dependencies tasks with
     | Except.error e => Except.error e
     | Except.ok groups => Except.ok (executeGroupsAux invoke groups []))
  | WorkflowType.conditional => Except.ok (executeConditionalAux invoke tasks [])

/-! ## Association-list (Python dict) lemmas -/

/-- Setting a key makes it immediately readable. -/
theorem dictLookup_dictSet_self {α : Type} (d : List (String × α)) (k : String) (v : α) :
    dictLookup (dictSet d k v) k = some v := by
  induction d with
  | nil => simp [dictSet, dictLookup]
  | cons p rest ih =>
    by_cases h : p.1 = k
    · simp [dictSet, h, dictLookup]
    · simp [dictSet, h, dictLookup, ih]

/-- Setting one key leaves every other key unchanged. -/
theorem dictLookup_dictSet_ne {α : Type} (d : List (String × α)) (k' k : String) (v : α)
    (h : k' ≠ k) : dictLookup (dictSet d k' v) k = dictLookup d k := by
  induction d with
  | nil => simp [dictSet, dictLookup, h]
  | cons p rest ih =>
    by_cases hp : p.1 = k'
    · have hpk : ¬ p.1 = k := by rw [hp]; exact h
      simp [dictSet, hp, dictLookup, h, hpk]
    · simp [dictSet, hp, dictLookup, ih]

/-- A key absent from the key list looks up to `none`. -/
theorem dictLookup_eq_none_of_not_mem {α : Type} (d : List (String × α)) (k : String)
    (h : k ∉ d.map Prod.fst) : dictLookup d k = none := by
  induction d with
  | nil => rfl
  | cons p rest ih =>
    simp only [List.map_cons, List.mem_cons] at h
    push_neg at h
    have hne : ¬ p.1 = k := fun he => h.1 he.symm
    simp [dictLookup, hne, ih h.2]

/-- Every key of `dictSet d k v` is `k` or a key of `d`. -/
theorem mem_keys_dictSet {α : Type} (d : List (String × α)) (k : String) (v : α) (x : String)
    (h : x ∈ (dictSet d k v).map Prod.fst) : x = k ∨ x ∈ d.map Prod.fst := by
  induction d with
  | nil => simpa [dictSet] using h
  | cons p rest ih =>
    by_cases hp : p.1 = k
    · simp only [dictSet, hp, if_true, List.map_cons, List.mem_cons] at h
      rcases h with h | h
      · exact Or.inl h
      · exact Or.inr (by simp [h])
    · simp only [dictSet, hp, if_false, List.map_cons, List.mem_cons] at h
      rcases h with h | h
      · exact Or.inr (by simp [h])
      · rcases ih h with h' | h'
        · exact Or.inl h'
        · exact Or.inr (by simp [h'])

/-- `dictSet` preserves key distinctness (Python dicts cannot acquire a
duplicate key through assignment). -/
theorem nodup_keys_dictSet {α : Type} (d : List (String × α)) (k : String) (v : α)
    (h : (d.map Prod.fst).Nodup) : ((dictSet d k v).map Prod.fst).Nodup := by
  induction d with
  | nil => simp [dictSet]
  | cons p rest ih =>
    simp only [List.map_cons, List.nodup_cons] at h
    by_cases hp : p.1 = k
    · simp only [dictSet, hp, if_true, List.map_cons, List.nodup_cons]
      exact ⟨hp ▸ h.1, h.2⟩
    · simp only [dictSet, hp, if_false, List.map_cons, List.nodup_cons]
      refine ⟨fun hmem => ?_, ih h.2⟩
      rcases mem_keys_dictSet rest k v p.1 hmem with h' | h'
      · exact hp h'
      · exact h.1 h'

/-- Deleting a key under distinct keys really removes it. -/
theorem dictLookup_dictDel_self {α : Type} (d : List (String × α)) (k : String)
    (h : (d.map Prod.fst).Nodup) : dictLookup (dictDel d k) k = none := by
  induction d with
  | nil => rfl
  | cons p rest ih =>
    simp only [List.map_cons, List.nodup_cons] at h
    by_cases hp : p.1 = k
    · simp only [dictDel, hp, if_true]
      exact dictLookup_eq_none_of_not_mem rest k (hp ▸ h.1)
    · simp [dictDel, hp, dictLookup, ih h.2]

/-! ## C4 — fallback builder -/

/-- C4: `buildFallback` (`_create_fallback_response`) is total and, for
every owner, repo and message, yields an analysis whose `summary` is the
message verbatim, whose `confidence_score` is 0.5, whose `tech_stack`,
`key_features` and `tags` are empty, and whose metadata carries the
given owner and repo with `primary_language = "Unknown"`, zero counts,
false booleans and an empty language distribution. -/
theorem create_fallback_response_spec (owner repo msg : String) :
    jsonField (createFallbackResponse owner repo msg) "summary" = some (Json.str msg) ∧
    jsonField (createFallbackResponse owner repo msg) "confidence_score" =
      some (Json.num 5 (-1)) ∧
    jsonField (createFallbackResponse owner repo msg) "tech_stack" = some (Json.arr []) ∧
    jsonField (createFallbackResponse owner repo msg) "key_features" = some (Json.arr []) ∧
    jsonField (createFallbackResponse owner repo msg) "tags" = some (Json.arr []) ∧
    jsonField (createFallbackResponse owner repo msg) "metadata" =
      some (Json.obj
        [("repository_owner", Json.str owner),
         ("repository_name", Json.str repo),
         ("primary_language", Json.str "Unknown"),
         ("language_distribution", Json.obj []),
         ("star_count", Json.num 0 0),
         ("fork_count", Json.num 0 0),
         ("last_updated", Json.str ""),
         ("has_readme", Json.bool false),
         ("has_tests", Json.bool false),
         ("has_ci", Json.bool false)]) :=
  ⟨rfl, rfl, rfl, rfl, rfl, rfl⟩

/-! ## C7 — expiring cache -/

/-- C7: after `set(k, v)` at time `t`, an immediate `get(k)` returns
`v`; once more than the TTL has elapsed, `get(k)` returns `None` and
evicts the entry, and a later `get(k)` at any time still returns `None`
(the evicted entry is not resurrected) until a new `set` occurs.  The
key-distinctness hypothesis is the Python dict invariant. -/
theorem cache_ttl_spec (ttl : Nat) (st : CacheState) (k : String) (v : Json)
    (t t' t'' : Int) (hnodup : (st.map Prod.fst).Nodup) (hexp : t' - t > (ttl : Int)) :
    cacheGet ttl (cacheSet st k v t) k t = (some v, cacheSet st k v t) ∧
    cacheGet ttl (cacheSet st k v t) k t' = (none, dictDel (cacheSet st k v t) k) ∧
    cacheGet ttl (dictDel (cacheSet st k v t) k) k t'' =
      (none, dictDel (cacheSet st k v t) k) := by
  have hlook : dictLookup (cacheSet st k v t) k = some (v, t) :=
    dictLookup_dictSet_self st k (v, t)
  have hnodup' : ((cacheSet st k v t).map Prod.fst).Nodup :=
    nodup_keys_dictSet st k (v, t) hnodup
  refine ⟨?_, ?_, ?_⟩
  · simp only [cacheGet, hlook]
    rw [if_neg (by omega)]
  · simp only [cacheGet, hlook]
    rw [if_pos hexp]
  · simp only [cacheGet, dictLookup_dictDel_self _ _ hnodup']

/-- Witness for C7 at a concrete state: TTL 2, insertion at time 0,
reads at times 0, 3 and 100. -/
theorem cache_ttl_spec_witness :
    ((([] : CacheState).map Prod.fst).Nodup ∧ (3 : Int) - 0 > ((2 : Nat) : Int)) ∧
    (cacheGet 2 (cacheSet [] "k" Json.null 0) "k" 0 =
        (some Json.null, cacheSet [] "k" Json.null 0) ∧
      cacheGet 2 (cacheSet [] "k" Json.null 0) "k" 3 =
        (none, dictDel (cacheSet [] "k" Json.null 0) "k") ∧
      cacheGet 2 (dictDel (cacheSet [] "k" Json.null 0) "k") "k" 100 =
        (none, dictDel (cacheSet [] "k" Json.null 0) "k")) :=
  ⟨⟨by simp, by decide⟩,
    cache_ttl_spec 2 [] "k" Json.null 0 3 100 (by simp) (by decide)⟩

/-! ## C1 — extraction failures and the fallback path of `analyze_project` -/

/-- C1 (amended): whenever extraction of the agent reply either raises
`json.JSONDecodeError` or produces a non-dict value (so that the
logging call's `.get` raises `AttributeError`), the reply-handling
stage returns `status="completed"` with the fallback analysis built
from `str(result.message)` and the fixed warning — the failure is not
surfaced as an error.  The one exception, stated in the second
conjunct, is a `content` array carrying a non-string `"text"` value:
the string concatenation raises `TypeError`, which is not in the caught
exception tuple, and the entrypoint answers `status="failed"`. -/
theorem analyze_recovers_extraction_failure (owner repo : String) (msg : Json) :
    (isOkObj (extractJsonFromResponse msg) = false →
      isTypeErrorResult (extractJsonFromResponse msg) = false →
      handleAgentReply owner repo msg =
        ⟨"completed", some (createFallbackResponse owner repo (pyStr msg)),
          some fallbackWarning, none⟩) ∧
    (isTypeErrorResult (extractJsonFromResponse msg) = true →
      (handleAgentReply owner repo msg).status = "failed" ∧
      (handleAgentReply owner repo msg).analysis = none) := by
  constructor
  · intro hobj htyp
    cases hE : extractJsonFromResponse msg with
    | ok j =>
      cases j with
      | obj fields => rw [hE] at hobj; simp [isOkObj] at hobj
      | null => simp [handleAgentReply, hE]
      | bool b => simp [handleAgentReply, hE]
      | num m e => simp [handleAgentReply, hE]
      | str s => simp [handleAgentReply, hE]
      | arr xs => simp [handleAgentReply, hE]
    | error e =>
      cases e with
      | jsonDecodeError m => simp [handleAgentReply, hE]
      | typeError m => rw [hE] at htyp; simp [isTypeErrorResult] at htyp
  · intro htyp
    cases hE : extractJsonFromResponse msg with
    | ok j => rw [hE] at htyp; cases j <;> simp [isTypeErrorResult] at htyp
    | error e =>
      cases e with
      | jsonDecodeError m => rw [hE] at htyp; simp [isTypeErrorResult] at htyp
      | typeError m => simp [handleAgentReply, hE]

/-- Witness for C1 (amended) at a concrete unparseable text reply. -/
theorem analyze_recovers_extraction_failure_witness :
    (isOkObj (extractJsonFromResponse (Json.str "no json here")) = false ∧
      isTypeErrorResult (extractJsonFromResponse (Json.str "no json here")) = false) ∧
    handleAgentReply "octocat" "hello-world" (Json.str "no json here") =
      ⟨"completed",
        some (createFallbackResponse "octocat" "hello-world" "no json here"),
        some fallbackWarning, none⟩ :=
  ⟨⟨rfl, rfl⟩,
    (analyze_recovers_extraction_failure "octocat" "hello-world"
      (Json.str "no json here")).1 rfl rfl⟩

/-- Counterexample for C1 as stated: the reply
`{"content": [{"text": 5}]}` has no parseable JSON-object content (its
extraction raises before any parse), yet `analyze_project` returns
`status="failed"` rather than the claimed `status="completed"` with a
fallback. -/
theorem analyze_extraction_failure_surfaced_counterexample :
    isOkObj (extractJsonFromResponse
      (Json.obj [("content", Json.arr [Json.obj [("text", Json.num 5 0)]])])) = false ∧
    (handleAgentReply "octocat" "hello-world"
      (Json.obj [("content", Json.arr [Json.obj [("text", Json.num 5 0)]])])).status =
      "failed" :=
  ⟨rfl, rfl⟩

/-! ## C3 — strategy order of `_extract_json_from_text` -/

/-- C3 (amended): the extractor tries the fenced-block strategy, the
brace-counting strategy and the whole-text parse in that order, but it
stops at the first strategy that produces a *candidate*: that
candidate's `json.loads` result — success or failure — is the result of
the call, and a later strategy is attempted only when the earlier one
found no candidate at all. -/
theorem extract_strategy_order (text : List Char) :
    (∀ cand, fencedCandidate text = some cand →
      extractJsonFromText text = jsonLoads cand) ∧
    (fencedCandidate text = none → ∀ cand, braceCandidate text = some cand →
      extractJsonFromText text = jsonLoads cand) ∧
    (fencedCandidate text = none → braceCandidate text = none →
      extractJsonFromText text = jsonLoads text) := by
  refine ⟨?_, ?_, ?_⟩
  · intro cand h
    simp [extractJsonFromText, h]
  · intro hf cand hb
    simp [extractJsonFromText, hf, hb]
  · intro hf hb
    simp [extractJsonFromText, hf, hb]

/-- Witness for C3 (amended): on a fenced reply the fenced candidate is
taken and parsed. -/
theorem extract_strategy_order_witness :
    fencedCandidate "\x60\x60\x60json \x7b\x7d\x60\x60\x60".toList =
      some "\x7b\x7d".toList ∧
    extractJsonFromText "\x60\x60\x60json \x7b\x7d\x60\x60\x60".toList =
      jsonLoads "\x7b\x7d".toList :=
  ⟨rfl, (extract_strategy_order "\x60\x60\x60json \x7b\x7d\x60\x60\x60".toList).1
    "\x7b\x7d".toList rfl⟩

/-- Counterexample for C3 as stated: in
`{"a": 1} ```json {bad} ``` ` the fenced strategy finds the candidate
`{bad}`, whose parse fails, and the call fails — even though the
brace-counting strategy, had it been attempted, would have succeeded on
`{"a": 1}`.  Later strategies are therefore *not* always attempted
before the call fails. -/
theorem extract_no_fallthrough_counterexample :
    isOkObj (extractJsonFromText
      "\x7b\"a\": 1\x7d \x60\x60\x60json \x7bbad\x7d \x60\x60\x60".toList) = false ∧
    braceCandidate "\x7b\"a\": 1\x7d \x60\x60\x60json \x7bbad\x7d \x60\x60\x60".toList =
      some "\x7b\"a\": 1\x7d".toList ∧
    isOkObj (jsonLoads "\x7b\"a\": 1\x7d".toList) = true :=
  ⟨rfl, rfl, rfl⟩

/-! ## C6 — `check_repository_exists` classification -/

/-- C6: `check_repository_exists` first consults the rate-limit
tracker; when it reports limited the call fails with a rate-limit error
whose outcome does not depend on (and never consumes) the existence
probe.  Otherwise the single probe response is classified: 200 → true,
404 → false, 403 whose body mentions rate limiting → rate-limit error,
403 without that wording → false, any other status → generic upstream
error, and a transport timeout or network failure → the distinct
timeout/network errors.  Every received response first feeds its
headers into the rate-limit cache. -/
theorem check_repository_exists_spec (st : ValidatorState) (now : Int) (rp : RateProbe) :
    ((get_rate_limit_info st now rp).1.is_limited = true →
      ∀ p, check_repository_exists st now rp p =
        (Except.error
          (CheckError.rateLimitedPre (get_rate_limit_info st now rp).1.reset_time),
          (get_rate_limit_info st now rp).2)) ∧
    ((get_rate_limit_info st now rp).1.is_limited = false →
      (∀ b h, check_repository_exists st now rp (ProbeResult.response 200 b h) =
        (Except.ok true,
          update_rate_limit_cache (get_rate_limit_info st now rp).2 now h)) ∧
      (∀ b h, check_repository_exists st now rp (ProbeResult.response 404 b h) =
        (Except.ok false,
          update_rate_limit_cache (get_rate_limit_info st now rp).2 now h)) ∧
      (∀ h, check_repository_exists st now rp (ProbeResult.response 403 true h) =
        (Except.error CheckError.rateLimited403,
          update_rate_limit_cache (get_rate_limit_info st now rp).2 now h)) ∧
      (∀ h, check_repository_exists st now rp (ProbeResult.response 403 false h) =
        (Except.ok false,
          update_rate_limit_cache (get_rate_limit_info st now rp).2 now h)) ∧
      (∀ s b h, s ≠ 200 → s ≠ 404 → s ≠ 403 →
        check_repository_exists st now rp (ProbeResult.response s b h) =
        (Except.error (CheckError.apiError s),
          update_rate_limit_cache (get_rate_limit_info st now rp).2 now h)) ∧
      (check_repository_exists st now rp ProbeResult.timeout =
        (Except.error CheckError.timeoutError, (get_rate_limit_info st now rp).2)) ∧
      (∀ m, check_repository_exists st now rp (ProbeResult.networkError m) =
        (Except.error (CheckError.networkErr m), (get_rate_limit_info st now rp).2))) := by
  constructor
  · intro hlim p
    simp [check_repository_exists, hlim]
  · intro hlim
    refine ⟨?_, ?_, ?_, ?_, ?_, ?_, ?_⟩
    · intro b h; simp [check_repository_exists, hlim]
    · intro b h; simp [check_repository_exists, hlim]
    · intro h; simp [check_repository_exists, hlim]
    · intro h; simp [check_repository_exists, hlim]
    · intro s b h h200 h404 h403
      simp [check_repository_exists, hlim, h200, h404, h403]
    · simp [check_repository_exists, hlim]
    · intro m; simp [check_repository_exists, hlim]

/-- Witness for C6 at two concrete states: a freshly-limited cache
(fail-fast, probe unused) and an empty cache with a 403 response whose
body mentions the rate limit. -/
theorem check_repository_exists_spec_witness :
    ((get_rate_limit_info ⟨some ⟨true, some 99, 0, 60⟩, some 50⟩ 10
        RateProbe.probeExn).1.is_limited = true ∧
      check_repository_exists ⟨some ⟨true, some 99, 0, 60⟩, some 50⟩ 10
        RateProbe.probeExn ProbeResult.timeout =
        (Except.error (CheckError.rateLimitedPre (some 99)),
          ⟨some ⟨true, some 99, 0, 60⟩, some 50⟩)) ∧
    ((get_rate_limit_info ⟨none, none⟩ 10 RateProbe.probeExn).1.is_limited = false ∧
      check_repository_exists ⟨none, none⟩ 10 RateProbe.probeExn
        (ProbeResult.response 403 true none) =
        (Except.error CheckError.rateLimited403, ⟨none, none⟩)) :=
  ⟨⟨rfl,
    (check_repository_exists_spec ⟨some ⟨true, some 99, 0, 60⟩, some 50⟩ 10
      RateProbe.probeExn).1 rfl ProbeResult.timeout⟩,
   ⟨rfl,
    ((check_repository_exists_spec ⟨none, none⟩ 10 RateProbe.probeExn).2 rfl).2.2.1 none⟩⟩

/-! ## C8 — stickiness of a cached rate-limit observation -/

/-- C8: once the tracker caches an observation with `is_limited = true`
(the flag the code computes as `remaining <= 0`), every
`get_rate_limit_info` call inside the cache window returns it unchanged
— so `is_limited` stays true — until either the window expires or an
expired-cache probe reports `remaining > 0`, which flips
`is_limited` to false.  The final conjunct shows the observation itself:
caching header values with `remaining <= 0` stores `is_limited = true`
with a fresh 60-second expiry. -/
theorem rate_limit_sticky (st : ValidatorState) (info : RateLimitInfo) (expiry : Int)
    (hc : st.rateLimitCache = some info) (he : st.cacheExpiry = some expiry)
    (hl : info.is_limited = true) :
    (∀ now probe, now < expiry → get_rate_limit_info st now probe = (info, st)) ∧
    (∀ now r l t, ¬ now < expiry → 0 < r →
      (get_rate_limit_info st now (RateProbe.probeOk r l t)).1.is_limited = false) ∧
    (∀ (st' : ValidatorState) (now r l t : Int), r ≤ 0 →
      (update_rate_limit_cache st' now (some (r, l, t))).rateLimitCache =
        some ⟨true, if t ≠ 0 then some t else none, r, l⟩ ∧
      (update_rate_limit_cache st' now (some (r, l, t))).cacheExpiry = some (now + 60)) := by
  refine ⟨?_, ?_, ?_⟩
  · intro now probe hnow
    simp [get_rate_limit_info, hc, he, hnow]
  · intro now r l t hnow hr
    simp [get_rate_limit_info, hc, he, hnow, get_rate_limit_info.get_rate_limit_info_probe]
    omega
  · intro st' now r l t hr
    constructor
    · simp [update_rate_limit_cache, hr, decide_eq_true hr]
    · simp [update_rate_limit_cache]

/-- Witness for C8 at a concrete limited cache. -/
theorem rate_limit_sticky_witness :
    ((⟨some ⟨true, some 99, 0, 60⟩, some 100⟩ : ValidatorState).rateLimitCache =
        some ⟨true, some 99, 0, 60⟩ ∧
      (⟨some ⟨true, some 99, 0, 60⟩, some 100⟩ : ValidatorState).cacheExpiry = some 100 ∧
      (⟨true, some 99, 0, 60⟩ : RateLimitInfo).is_limited = true) ∧
    (get_rate_limit_info ⟨some ⟨true, some 99, 0, 60⟩, some 100⟩ 5 RateProbe.probeExn =
        (⟨true, some 99, 0, 60⟩, ⟨some ⟨true, some 99, 0, 60⟩, some 100⟩) ∧
      (get_rate_limit_info ⟨some ⟨true, some 99, 0, 60⟩, some 100⟩ 200
        (RateProbe.probeOk 10 60 777)).1.is_limited = false ∧
      (update_rate_limit_cache ⟨none, none⟩ 0 (some (-1, 60, 7))).rateLimitCache =
        some ⟨true, some 7, -1, 60⟩ ∧
      (update_rate_limit_cache ⟨none, none⟩ 0 (some (-1, 60, 7))).cacheExpiry = some 60) := by
  have h := rate_limit_sticky ⟨some ⟨true, some 99, 0, 60⟩, some 100⟩
    ⟨true, some 99, 0, 60⟩ 100 rfl rfl rfl
  refine ⟨⟨rfl, rfl, rfl⟩, ?_, ?_, ?_, ?_⟩
  · exact h.1 5 RateProbe.probeExn (by decide)
  · exact h.2.1 200 10 60 777 (by decide) (by decide)
  · exact ((h.2.2 ⟨none, none⟩ 0 (-1) 60 7 (by decide)).1.trans (by norm_num))
  · exact (h.2.2 ⟨none, none⟩ 0 (-1) 60 7 (by decide)).2.trans (by norm_num)

/-! ## C9 — circular dependencies -/

/-- If a nonempty subset `S` of the remaining tasks is such that every
member depends on the name of a member of `S`, none of whose names is
completed, then the grouping loop can never schedule any member of `S`
and ends in the circular-dependency error. -/
theorem groupAux_cycle (S : List AgentTask) (hS : S ≠ [])
    (hdep : ∀ t ∈ S, ∃ d ∈ t.depends_on, d ∈ S.map AgentTask.agent_name) :
    ∀ (n : Nat) (remaining : List AgentTask) (completed : List String),
      remaining.length ≤ n →
      (∀ t ∈ S, t ∈ remaining) →
      (remaining.map AgentTask.agent_name).Nodup →
      (∀ m ∈ S.map AgentTask.agent_name, m ∉ completed) →
      groupByDepsAux remaining completed =
        Except.error "Circular dependency detected in workflow" := by
  obtain ⟨s0, hs0⟩ : ∃ s, s ∈ S := by
    cases S with
    | nil => exact absurd rfl hS
    | cons a t => exact ⟨a, List.mem_cons_self a t⟩
  intro n
  induction n with
  | zero =>
    intro remaining completed hlen hsub _ _
    have hs0r : s0 ∈ remaining := hsub s0 hs0
    have : 0 < remaining.length := List.length_pos.mpr (fun h => by simp [h] at hs0r)
    omega
  | succ n ih =>
    intro remaining completed hlen hsub hnodup hcomp
    have hnotready : ∀ t ∈ S,
        (t.depends_on.all (fun d => decide (d ∈ completed))) = false := by
      intro t ht
      obtain ⟨d, hd, hdS⟩ := hdep t ht
      apply Bool.eq_false_iff.mpr
      intro hall
      rw [List.all_eq_true] at hall
      exact hcomp d hdS (of_decide_eq_true (hall d hd))
    have hrem_ne : remaining.isEmpty = false := by
      have hs0r : s0 ∈ remaining := hsub s0 hs0
      cases remaining with
      | nil => simp at hs0r
      | cons a t => rfl
    rw [groupByDepsAux]
    rw [if_neg (by rw [hrem_ne]; exact Bool.false_ne_true)]
    by_cases hg : (remaining.filter
        (fun t => t.depends_on.all (fun d => decide (d ∈ completed)))).isEmpty = true
    · rw [dif_pos hg]
    · rw [dif_neg hg]
      have hcur_ne : remaining.filter
          (fun t => t.depends_on.all (fun d => decide (d ∈ completed))) ≠ [] := by
        intro h
        rw [h] at hg
        exact hg rfl
      have hlen' : (remaining.filter
          (fun t => !(t.depends_on.all (fun d => decide (d ∈ completed))))).length ≤ n := by
        have hlt : (remaining.filter
            (fun t => !(t.depends_on.all (fun d => decide (d ∈ completed))))).length <
            remaining.length := length_filter_not_lt
          (fun t => t.depends_on.all (fun d => decide (d ∈ completed))) remaining hcur_ne
        omega
      have hsub' : ∀ t ∈ S, t ∈ remaining.filter
          (fun t => !(t.depends_on.all (fun d => decide (d ∈ completed)))) := by
        intro t ht
        exact List.mem_filter.mpr ⟨hsub t ht, by rw [hnotready t ht]; rfl⟩
      have hnodup' : ((remaining.filter
          (fun t => !(t.depends_on.all (fun d => decide (d ∈ completed))))).map
            AgentTask.agent_name).Nodup :=
        hnodup.sublist (List.Sublist.map _ (List.filter_sublist _))
      have hcomp' : ∀ m ∈ S.map AgentTask.agent_name,
          m ∉ completed ++ (remaining.filter
            (fun t => t.depends_on.all (fun d => decide (d ∈ completed)))).map
              (·.agent_name) := by
        intro m hm
        rw [List.mem_append]
        rintro (hin | hin)
        · exact hcomp m hm hin
        · obtain ⟨u, hu, hum⟩ := List.mem_map.mp hin
          obtain ⟨s, hsS, hsm⟩ := List.mem_map.mp hm
          have hur : u ∈ remaining := List.mem_of_mem_filter hu
          have hsr : s ∈ remaining := hsub s hsS
          have hus : u = s :=
            List.inj_on_of_nodup_map hnodup hur hsr (hum.trans hsm.symm)
          have hready : (u.depends_on.all (fun d => decide (d ∈ completed))) = true :=
            (List.mem_filter.mp hu).2
          rw [hus, hnotready s hsS] at hready
          exact Bool.false_ne_true hready
      rw [ih _ _ hlen' hsub' hnodup' hcomp']

/-- C9 (amended): in *parallel* mode, a task set containing a
dependency cycle (a nonempty subset each of whose members depends on
another member, task names being distinct) fails with the
circular-dependency error before any task is invoked — the result does
not depend on the invocation function at all.  Sequential and
conditional modes do not detect cycles (see the counterexample). -/
theorem parallel_cycle_fails (tasks S : List AgentTask) (hS : S ≠ [])
    (hsub : ∀ t ∈ S, t ∈ tasks)
    (hdep : ∀ t ∈ S, ∃ d ∈ t.depends_on, d ∈ S.map AgentTask.agent_name)
    (hnodup : (tasks.map AgentTask.agent_name).Nodup) :
    ∀ invoke, executeWorkflow WorkflowType.parallel invoke tasks =
      Except.error "Circular dependency detected in workflow" := by
  intro invoke
  have hg : groupByDepsAux tasks [] =
      Except.error "Circular dependency detected in workflow" :=
    groupAux_cycle S hS hdep tasks.length tasks [] le_rfl hsub hnodup
      (by intro m _; exact List.not_mem_nil m)
  simp [executeWorkflow, group_by_dependencies, hg]

/-- Witness for C9 (amended): the two-task cycle `A -> B -> A` in
parallel mode. -/
theorem parallel_cycle_fails_witness :
    executeWorkflow WorkflowType.parallel (fun _ _ => Json.null)
      [⟨"A", [], ["B"]⟩, ⟨"B", [], ["A"]⟩] =
      Except.error "Circular dependency detected in workflow" :=
  parallel_cycle_fails [⟨"A", [], ["B"]⟩, ⟨"B", [], ["A"]⟩]
    [⟨"A", [], ["B"]⟩, ⟨"B", [], ["A"]⟩]
    (by simp)
    (fun t ht => ht)
    (by
      intro t ht
      rcases List.mem_cons.mp ht with h | h
      · exact ⟨"B", by rw [h]; simp, by simp⟩
      · rcases List.mem_cons.mp h with h' | h'
        · exact ⟨"A", by rw [h']; simp, by simp⟩
        · simp at h')
    (by simp)
    (fun _ _ => Json.null)

/-- Counterexample for C9 as stated ("in every execution mode"): the
same cyclic task set in *sequential* mode raises no error and invokes
both tasks (the trace records two invocations). -/
theorem sequential_cycle_executes_counterexample :
    executeWorkflow WorkflowType.sequential (fun _ _ => Json.null)
      [⟨"A", [], ["B"]⟩, ⟨"B", [], ["A"]⟩] =
      Except.ok ([("A", Json.null), ("B", Json.null)],
        [("A", []), ("B", [("A_result", Json.null)])]) := rfl

/-! ## C10 — dependency results are merged into a copy -/

/-- The dependency-merge loop of `_resolve_dependencies` only touches
keys of the form `{dep}_result`. -/
theorem dictLookup_resolve_foldl (deps : List String) (results : List (String × Json))
    (k : String) (hk : ∀ d ∈ deps, k ≠ d ++ "_result") :
    ∀ acc : List (String × Json),
      dictLookup (deps.foldl (fun acc dep =>
        match dictLookup results dep with
        | some r => dictSet acc (dep ++ "_result") r
        | none => acc) acc) k = dictLookup acc k := by
  induction deps with
  | nil => intro acc; rfl
  | cons d ds ih =>
    intro acc
    rw [List.foldl_cons]
    rw [ih (fun d' hd' => hk d' (List.mem_cons_of_mem _ hd'))]
    cases h : dictLookup results d with
    | none => rfl
    | some r =>
      exact dictLookup_dictSet_ne acc (d ++ "_result") k r
        (fun he => hk d (List.mem_cons_self d ds) he.symm)

/-- `_resolve_dependencies` leaves every key that is not a
`{dep}_result` key exactly as in the task's own `input_data`. -/
theorem resolve_dependencies_frame (task : AgentTask) (results : List (String × Json))
    (k : String) (hk : ∀ d ∈ task.depends_on, k ≠ d ++ "_result") :
    dictLookup (resolveDependencies task results) k = dictLookup task.input_data k :=
  dictLookup_resolve_foldl task.depends_on results k hk task.input_data

/-- Every recorded invocation belongs to a listed task and received a
mapping that agrees with that task's original `input_data` on every key
that is not a `{dep}_result` key of one of its dependencies. -/
def TraceOk (tasks : List AgentTask) (trace : InvocationTrace) : Prop :=
  ∀ e ∈ trace, ∃ task, task ∈ tasks ∧ e.1 = task.agent_name ∧
    ∀ k, (∀ d ∈ task.depends_on, k ≠ d ++ "_result") →
      dictLookup e.2 k = dictLookup task.input_data k

/-- Weakening: a trace fine for a task list is fine for a superset. -/
theorem traceOk_mono (tasks tasks' : List AgentTask) (trace : InvocationTrace)
    (hsub : ∀ t ∈ tasks, t ∈ tasks') (h : TraceOk tasks trace) : TraceOk tasks' trace := by
  intro e he
  obtain ⟨task, h1, h2, h3⟩ := h e he
  exact ⟨task, hsub task h1, h2, h3⟩

/-- Sequential execution produces a frame-respecting trace from any
starting results dict. -/
theorem traceOk_sequential (invoke : String → List (String × Json) → Json) :
    ∀ (tasks : List AgentTask) (results : List (String × Json)),
      TraceOk tasks (executeSequentialAux invoke tasks results).2 := by
  intro tasks
  induction tasks with
  | nil => intro results e he; simp [executeSequentialAux] at he
  | cons task rest ih =>
    intro results e he
    simp only [executeSequentialAux] at he
    rcases List.mem_cons.mp he with h | h
    · refine ⟨task, List.mem_cons_self task rest, by rw [h], ?_⟩
      intro k hk
      rw [h]
      exact resolve_dependencies_frame task results k hk
    · exact traceOk_mono rest (task :: rest) _
        (fun t ht => List.mem_cons_of_mem _ ht) (ih _) e h

/-- Conditional execution produces a frame-respecting trace. -/
theorem traceOk_conditional (invoke : String → List (String × Json) → Json) :
    ∀ (tasks : List AgentTask) (results : List (String × Json)),
      TraceOk tasks (executeConditionalAux invoke tasks results).2 := by
  intro tasks
  induction tasks with
  | nil => intro results e he; simp [executeConditionalAux] at he
  | cons task rest ih =>
    intro results e he
    by_cases hd : (task.depends_on.all (fun d => (dictLookup results d).isSome)) = true
    · simp only [executeConditionalAux, hd, if_true] at he
      rcases List.mem_cons.mp he with h | h
      · refine ⟨task, List.mem_cons_self task rest, by rw [h], ?_⟩
        intro k hk
        rw [h]
        exact resolve_dependencies_frame task results k hk
      · exact traceOk_mono rest (task :: rest) _
          (fun t ht => List.mem_cons_of_mem _ ht) (ih _) e h
    · simp only [executeConditionalAux, hd, if_false] at he
      exact traceOk_mono rest (task :: rest) _
        (fun t ht => List.mem_cons_of_mem _ ht) (ih _) e he

/-- Wave execution produces a frame-respecting trace whenever every
wave consists of listed tasks. -/
theorem traceOk_groups (invoke : String → List (String × Json) → Json)
    (tasks : List AgentTask) :
    ∀ (groups : List (List AgentTask)) (results : List (String × Json)),
      (∀ g ∈ groups, ∀ t ∈ g, t ∈ tasks) →
      TraceOk tasks (executeGroupsAux invoke groups results).2 := by
  intro groups
  induction groups with
  | nil => intro results _ e he; simp [executeGroupsAux] at he
  | cons g gs ih =>
    intro results hsub e he
    simp only [executeGroupsAux] at he
    rcases List.mem_append.mp he with h | h
    · obtain ⟨t, ht, hte⟩ := List.mem_map.mp h
      refine ⟨t, hsub g (List.mem_cons_self g gs) t ht, by rw [← hte], ?_⟩
      intro k hk
      rw [← hte]
      exact resolve_dependencies_frame t results k hk
    · exact ih _ (fun g' hg' => hsub g' (List.mem_cons_of_mem _ hg')) e h

/-- Groups returned by the grouping loop only contain remaining tasks. -/
theorem groupAux_subset :
    ∀ (n : Nat) (remaining : List AgentTask) (completed : List String)
      (gs : List (List AgentTask)), remaining.length ≤ n →
      groupByDepsAux remaining completed = Except.ok gs →
      ∀ g ∈ gs, ∀ t ∈ g, t ∈ remaining := by
  intro n
  induction n with
  | zero =>
    intro remaining completed gs hlen heq g hg t ht
    have : remaining = [] := List.length_eq_zero.mp (Nat.le_zero.mp hlen)
    subst this
    rw [groupByDepsAux] at heq
    simp only [List.isEmpty_nil, if_true] at heq
    cases heq
    simp at hg
  | succ n ih =>
    intro remaining completed gs hlen heq g hg t ht
    rw [groupByDepsAux] at heq
    by_cases hre : remaining.isEmpty = true
    · rw [if_pos hre] at heq
      cases heq
      simp at hg
    · rw [if_neg hre] at heq
      by_cases hcur : (remaining.filter
          (fun t => t.depends_on.all (fun d => decide (d ∈ completed)))).isEmpty = true
      · rw [dif_pos hcur] at heq
        cases heq
      · rw [dif_neg hcur] at heq
        cases hrec : groupByDepsAux
            (remaining.filter (fun t => !(t.depends_on.all (fun d => decide (d ∈ completed)))))
            (completed ++ (remaining.filter
              (fun t => t.depends_on.all (fun d => decide (d ∈ completed)))).map
                (·.agent_name)) with
        | error e => rw [hrec] at heq; cases heq
        | ok gs' =>
          rw [hrec] at heq
          cases heq
          rcases List.mem_cons.mp hg with h | h
          · subst h
            exact List.mem_of_mem_filter ht
          · have hcur_ne : remaining.filter
                (fun t => t.depends_on.all (fun d => decide (d ∈ completed))) ≠ [] := by
              intro hnil
              rw [hnil] at hcur
              exact hcur rfl
            have hlt : (remaining.filter
                (fun t => !(t.depends_on.all (fun d => decide (d ∈ completed))))).length <
                remaining.length := length_filter_not_lt
              (fun t => t.depends_on.all (fun d => decide (d ∈ completed))) remaining hcur_ne
            have := ih _ _ gs' (by omega) hrec g h t ht
            exact List.mem_of_mem_filter this

/-- C10: in every workflow mode, every agent invocation receives a
mapping that agrees with the task's own `input_data` on every key other
than the merged `{dep}_result` keys: dependency results are merged into
the *copy* made by `_resolve_dependencies`
(`task.input_data.copy()`), never written into the caller's
`AgentTask.input_data`, which the pure embedding leaves untouched by
construction. -/
theorem workflow_merges_into_copy (wt : WorkflowType)
    (invoke : String → List (String × Json) → Json) (tasks : List AgentTask)
    (results : List (String × Json)) (trace : InvocationTrace)
    (h : executeWorkflow wt invoke tasks = Except.ok (results, trace)) :
    TraceOk tasks trace := by
  cases wt with
  | sequential =>
    simp only [executeWorkflow, Except.ok.injEq] at h
    have := traceOk_sequential invoke tasks []
    rw [h] at this
    exact this
  | parallel =>
    simp only [executeWorkflow] at h
    cases hgr : group_by_dependencies tasks with
    | error e => rw [hgr] at h; cases h
    | ok groups =>
      rw [hgr] at h
      simp only [Except.ok.injEq] at h
      have hsub : ∀ g ∈ groups, ∀ t ∈ g, t ∈ tasks :=
        groupAux_subset tasks.length tasks [] groups le_rfl hgr
      have := traceOk_groups invoke tasks groups [] hsub
      rw [h] at this
      exact this
  | conditional =>
    simp only [executeWorkflow, Except.ok.injEq] at h
    have := traceOk_conditional invoke tasks []
    rw [h] at this
    exact this

/-- Witness for C10 at a concrete one-task sequential workflow. -/
theorem workflow_merges_into_copy_witness :
    TraceOk [⟨"A", [("x", Json.null)], []⟩] [("A", [("x", Json.null)])] :=
  workflow_merges_into_copy WorkflowType.sequential (fun _ _ => Json.null)
    [⟨"A", [("x", Json.null)], []⟩] [("A", Json.null)] [("A", [("x", Json.null)])] rfl

/-! ## C2 — round-trip of embedded JSON through the three wrappings -/

/-- A text without backticks cannot contain the ````json ` fence, so
strategy 1 finds nothing. -/
theorem fencedCandidate_eq_none (text : List Char)
    (h : text.all (fun c => c ≠ '\x60') = true) : fencedCandidate text = none := by
  induction text with
  | nil => rfl
  | cons c rest ih =>
    rw [List.all_cons] at h
    obtain ⟨hc, hrest⟩ := Bool.and_eq_true_iff.mp h
    have hc' : c ≠ '\x60' := of_decide_eq_true hc
    have hbe : ('\x60' == c) = false := by
      cases hbeq : ('\x60' == c) with
      | false => rfl
      | true => exact absurd (eq_of_beq hbeq).symm hc'
    have hmf : matchFenceAt (c :: rest) = none := by
      unfold matchFenceAt dropLit
      rw [if_neg ?_]
      have hL : "\x60\x60\x60json".toList =
          ['\x60', '\x60', '\x60', 'j', 's', 'o', 'n'] := rfl
      rw [hL]
      simp [List.isPrefixOf, hbe]
    simp only [fencedCandidate, hmf]
    exact ih hrest

/-- The brace-counting scan only looks at the consumed part: appending
text after the break point changes nothing but the remainder. -/
theorem braceScanSplit_append (ext : List Char) :
    ∀ (l : List Char) (n : Int) (u v : List Char),
      braceScanSplit l n = some (u, v) →
      braceScanSplit (l ++ ext) n = some (u, v ++ ext) := by
  intro l
  induction l with
  | nil => intro n u v h; simp [braceScanSplit] at h
  | cons c rest ih =>
    intro n u v h
    rw [braceScanSplit] at h
    rw [List.cons_append, braceScanSplit]
    by_cases h1 : c = '\x7b'
    · rw [if_pos h1] at h ⊢
      obtain ⟨p, hrec, heq⟩ := Option.map_eq_some'.mp h
      obtain ⟨u', v'⟩ := p
      simp only [Prod.mk.injEq] at heq
      obtain ⟨hu, hv⟩ := heq
      subst hu; subst hv
      rw [ih (n + 1) u' v' hrec]
      rfl
    · rw [if_neg h1] at h ⊢
      by_cases h2 : c = '\x7d'
      · rw [if_pos h2] at h ⊢
        by_cases h3 : n - 1 = 0
        · rw [if_pos h3] at h ⊢
          simp only [Option.some.injEq, Prod.mk.injEq] at h
          obtain ⟨hu, hv⟩ := h
          subst hu; subst hv
          rfl
        · rw [if_neg h3] at h ⊢
          obtain ⟨p, hrec, heq⟩ := Option.map_eq_some'.mp h
          obtain ⟨u', v'⟩ := p
          simp only [Prod.mk.injEq] at heq
          obtain ⟨hu, hv⟩ := heq
          subst hu; subst hv
          rw [ih (n - 1) u' v' hrec]
          rfl
      · rw [if_neg h2] at h ⊢
        obtain ⟨p, hrec, heq⟩ := Option.map_eq_some'.mp h
        obtain ⟨u', v'⟩ := p
        simp only [Prod.mk.injEq] at heq
        obtain ⟨hu, hv⟩ := heq
        subst hu; subst hv
        rw [ih n u' v' hrec]
        rfl

/-- A successful scan always consumed a closing brace. -/
theorem braceScanSplit_mem :
    ∀ (l : List Char) (n : Int) (u v : List Char),
      braceScanSplit l n = some (u, v) → '\x7d' ∈ u := by
  intro l
  induction l with
  | nil => intro n u v h; simp [braceScanSplit] at h
  | cons c rest ih =>
    intro n u v h
    rw [braceScanSplit] at h
    by_cases h1 : c = '\x7b'
    · rw [if_pos h1] at h
      obtain ⟨p, hrec, heq⟩ := Option.map_eq_some'.mp h
      obtain ⟨u', v'⟩ := p
      simp only [Prod.mk.injEq] at heq
      obtain ⟨hu, hv⟩ := heq
      subst hu
      exact List.mem_cons_of_mem c (ih (n + 1) u' v' hrec)
    · rw [if_neg h1] at h
      by_cases h2 : c = '\x7d'
      · rw [if_pos h2] at h
        by_cases h3 : n - 1 = 0
        · rw [if_pos h3] at h
          simp only [Option.some.injEq, Prod.mk.injEq] at h
          obtain ⟨hu, hv⟩ := h
          subst hu
          exact h2 ▸ List.mem_cons_self c []
        · rw [if_neg h3] at h
          obtain ⟨p, hrec, heq⟩ := Option.map_eq_some'.mp h
          obtain ⟨u', v'⟩ := p
          simp only [Prod.mk.injEq] at heq
          obtain ⟨hu, hv⟩ := heq
          subst hu
          exact List.mem_cons_of_mem c (ih (n - 1) u' v' hrec)
      · rw [if_neg h2] at h
        obtain ⟨p, hrec, heq⟩ := Option.map_eq_some'.mp h
        obtain ⟨u', v'⟩ := p
        simp only [Prod.mk.injEq] at heq
        obtain ⟨hu, hv⟩ := heq
        subst hu
        exact List.mem_cons_of_mem c (ih n u' v' hrec)

/-- Dropping whitespace from `l ++ t` stops inside `l` as soon as `l`
holds any non-whitespace character. -/
theorem dropWhile_append_first (p : Char → Bool) (l t : List Char)
    (h : ∃ x ∈ l, p x = false) :
    ∃ c r, (l ++ t).dropWhile p = c :: r ∧ c ∈ l ∧ p c = false := by
  induction l with
  | nil => obtain ⟨x, hx, _⟩ := h; simp at hx
  | cons a l' ih =>
    by_cases hpa : p a = true
    · obtain ⟨x, hx, hpx⟩ := h
      have hxl' : x ∈ l' := by
        rcases List.mem_cons.mp hx with h' | h'
        · rw [h'] at hpx; rw [hpa] at hpx; cases hpx
        · exact h'
      obtain ⟨c, r, heq, hc, hpc⟩ := ih ⟨x, hxl', hpx⟩
      refine ⟨c, r, ?_, List.mem_cons_of_mem a hc, hpc⟩
      rw [List.cons_append, List.dropWhile_cons, if_pos hpa]
      exact heq
    · have hpa' : p a = false := Bool.eq_false_iff.mpr hpa
      refine ⟨a, l' ++ t, ?_, List.mem_cons_self a l', hpa'⟩
      rw [List.cons_append, List.dropWhile_cons,
        if_neg (by rw [hpa']; exact Bool.false_ne_true)]

/-- Dropping while `p` holds passes over a block that satisfies `p`
everywhere. -/
theorem dropWhile_append_all (p : Char → Bool) (l : List Char)
    (h : l.all p = true) (t : List Char) :
    (l ++ t).dropWhile p = t.dropWhile p := by
  induction l with
  | nil => rfl
  | cons a l' ih =>
    rw [List.all_cons] at h
    obtain ⟨hpa, hl'⟩ := Bool.and_eq_true_iff.mp h
    rw [List.cons_append, List.dropWhile_cons, if_pos hpa]
    exact ih hl'

/-- Core of the fenced-regex/brace-scan agreement: when the scan
consumes exactly `l` (the balance first returns to zero at its last
character) and `l` holds no backtick, the non-greedy group search over
`l ++ "\n```"` ends exactly at `l`'s final brace: no earlier closing
brace can be followed by the closing fence, because the rest of `l`
still holds a non-whitespace, non-backtick character. -/
theorem findGroupEnd_of_scan :
    ∀ (l : List Char) (n : Int) (acc : List Char),
      braceScanSplit l n = some (l, []) →
      l.all (fun c => c ≠ '\x60') = true →
      findGroupEnd (l ++ '\n' :: '\x60' :: '\x60' :: '\x60' :: []) acc =
        some (acc.reverse ++ l) := by
  intro l
  induction l with
  | nil => intro n acc h _; simp [braceScanSplit] at h
  | cons c rest ih =>
    intro n acc h hnb
    rw [List.all_cons] at hnb
    obtain ⟨hcb, hrestb⟩ := Bool.and_eq_true_iff.mp hnb
    rw [braceScanSplit] at h
    rw [List.cons_append, findGroupEnd]
    by_cases h1 : c = '\x7b'
    · rw [if_pos h1] at h
      obtain ⟨p, hrec, heq⟩ := Option.map_eq_some'.mp h
      obtain ⟨u', v'⟩ := p
      simp only [Prod.mk.injEq, List.cons.injEq] at heq
      obtain ⟨⟨-, hu⟩, hv⟩ := heq
      rw [hu, hv] at hrec
      rw [if_neg (by rw [h1]; simp)]
      rw [ih (n + 1) (c :: acc) hrec hrestb]
      simp
    · rw [if_neg h1] at h
      by_cases h2 : c = '\x7d'
      · rw [if_pos h2] at h
        by_cases h3 : n - 1 = 0
        · rw [if_pos h3] at h
          simp only [Option.some.injEq, Prod.mk.injEq, List.cons.injEq] at h
          obtain ⟨⟨-, hnil⟩, hrest⟩ := h
          subst hrest
          rw [if_pos (by rw [h2]; rfl)]
          simp
        · rw [if_neg h3] at h
          obtain ⟨p, hrec, heq⟩ := Option.map_eq_some'.mp h
          obtain ⟨u', v'⟩ := p
          simp only [Prod.mk.injEq, List.cons.injEq] at heq
          obtain ⟨⟨-, hu⟩, hv⟩ := heq
          rw [hu, hv] at hrec
          have hmem : '\x7d' ∈ rest := braceScanSplit_mem rest (n - 1) rest [] hrec
          obtain ⟨c0, r0, heq0, hc0mem, hp0⟩ :=
            dropWhile_append_first isPyWs rest ('\n' :: '\x60' :: '\x60' :: '\x60' :: [])
              ⟨'\x7d', hmem, rfl⟩
          have hc0b : c0 ≠ '\x60' :=
            of_decide_eq_true (List.all_eq_true.mp hrestb c0 hc0mem)
          have hbe : ('\x60' == c0) = false := by
            cases hbeq : ('\x60' == c0) with
            | false => rfl
            | true => exact absurd (eq_of_beq hbeq).symm hc0b
          rw [if_neg (by
            rw [heq0]
            have hL : "\x60\x60\x60".toList = ['\x60', '\x60', '\x60'] := rfl
            rw [hL]
            simp [List.isPrefixOf, hbe])]
          rw [ih (n - 1) (c :: acc) hrec hrestb]
          simp
      · rw [if_neg h2] at h
        obtain ⟨p, hrec, heq⟩ := Option.map_eq_some'.mp h
        obtain ⟨u', v'⟩ := p
        simp only [Prod.mk.injEq, List.cons.injEq] at heq
        obtain ⟨⟨-, hu⟩, hv⟩ := heq
        rw [hu, hv] at hrec
        rw [if_neg (by simp [h2])]
        rw [ih n (c :: acc) hrec hrestb]
        simp

/-- When the text itself is the balanced object, strategy 2's candidate
is the whole text. -/
theorem braceCandidate_raw (s s' : List Char) (hs : s = '\x7b' :: s')
    (hbal : braceScanSplit s 0 = some (s, [])) : braceCandidate s = some s := by
  have hdw : s.dropWhile (fun c => c ≠ '\x7b') = s := by
    rw [hs, List.dropWhile_cons, if_neg (by simp)]
  unfold braceCandidate
  rw [hdw, hbal]

/-- Prose before (brace-free) and after the balanced object leaves
strategy 2's candidate exactly the object. -/
theorem braceCandidate_prose (p1 s s' p2 : List Char) (hs : s = '\x7b' :: s')
    (hbal : braceScanSplit s 0 = some (s, []))
    (hp1 : p1.all (fun c => c ≠ '\x7b') = true) :
    braceCandidate (p1 ++ s ++ p2) = some s := by
  have hdw : (p1 ++ s ++ p2).dropWhile (fun c => c ≠ '\x7b') = s ++ p2 := by
    rw [List.append_assoc, dropWhile_append_all _ p1 hp1]
    rw [hs, List.cons_append, List.dropWhile_cons, if_neg (by simp)]
  have hscan : braceScanSplit (s ++ p2) 0 = some (s, p2) := by
    have := braceScanSplit_append p2 s 0 s [] hbal
    simpa using this
  unfold braceCandidate
  rw [hdw, hscan]

/-- On a ````json`-fenced balanced object without backticks, strategy 1
matches at the first position and its group is exactly the object. -/
theorem fencedCandidate_fence (s s' : List Char) (hs : s = '\x7b' :: s')
    (hbal : braceScanSplit s 0 = some (s, []))
    (hnb : s.all (fun c => c ≠ '\x60') = true) :
    fencedCandidate ("\x60\x60\x60json\n".toList ++ s ++ "\n\x60\x60\x60".toList) =
      some s := by
  have htext : "\x60\x60\x60json\n".toList ++ s ++ "\n\x60\x60\x60".toList =
      '\x60' :: '\x60' :: '\x60' :: 'j' :: 's' :: 'o' :: 'n' :: '\n' ::
        (s ++ '\n' :: '\x60' :: '\x60' :: '\x60' :: []) := by
    simp
  have hmf : matchFenceAt ('\x60' :: '\x60' :: '\x60' :: 'j' :: 's' :: 'o' :: 'n' :: '\n' ::
      (s ++ '\n' :: '\x60' :: '\x60' :: '\x60' :: [])) = some s := by
    unfold matchFenceAt
    have hdl : dropLit "\x60\x60\x60json"
        ('\x60' :: '\x60' :: '\x60' :: 'j' :: 's' :: 'o' :: 'n' :: '\n' ::
          (s ++ '\n' :: '\x60' :: '\x60' :: '\x60' :: [])) =
        some ('\n' :: (s ++ '\n' :: '\x60' :: '\x60' :: '\x60' :: [])) := by
      unfold dropLit
      rw [if_pos (by rw [hs]; rfl)]
      rfl
    rw [hdl]
    have hdw : ('\n' :: (s ++ '\n' :: '\x60' :: '\x60' :: '\x60' :: [])).dropWhile isPyWs =
        '\x7b' :: (s' ++ '\n' :: '\x60' :: '\x60' :: '\x60' :: []) := by
      rw [List.dropWhile_cons, if_pos (show isPyWs '\n' = true from rfl), hs,
        List.cons_append, List.dropWhile_cons, if_neg (by simp [isPyWs])]
    show (match ('\n' :: (s ++ '\n' :: '\x60' :: '\x60' :: '\x60' :: [])).dropWhile isPyWs with
      | '\x7b' :: body => findGroupEnd ('\x7b' :: body) []
      | _ => none) = some s
    rw [hdw]
    have := findGroupEnd_of_scan s 0 [] hbal hnb
    simp only [List.reverse_nil, List.nil_append] at this
    rw [hs, List.cons_append] at this
    show findGroupEnd ('\x7b' :: (s' ++ '\n' :: '\x60' :: '\x60' :: '\x60' :: [])) [] =
      some s
    rw [hs]
    exact this
  rw [htext]
  rw [fencedCandidate, hmf]

/-- C2 (amended): for every string `s` that parses as a JSON object,
starts with `{`, has its naive brace count first return to zero at its
final character (no braces hide inside string literals before the end)
and contains no backtick, `extract` recovers exactly `json.loads(s)` in
all three wrappings — raw, ```` ```json ```` fence, and surrounded by
prose, provided the prose before holds no `{` and no backtick and the
prose after holds no backtick.  Without those provisos the claim fails
(see the counterexample). -/
theorem extract_roundtrip (s s' p1 p2 : List Char) (j : Json)
    (hs : s = '\x7b' :: s')
    (hparse : jsonLoads s = Except.ok j)
    (hobj : isOkObj (jsonLoads s) = true)
    (hbal : braceScanSplit s 0 = some (s, []))
    (hnb : s.all (fun c => c ≠ '\x60') = true)
    (hp1 : p1.all (fun c => c ≠ '\x7b' && c ≠ '\x60') = true)
    (hp2 : p2.all (fun c => c ≠ '\x60') = true) :
    extractJsonFromText s = Except.ok j ∧
    extractJsonFromText ("\x60\x60\x60json\n".toList ++ s ++ "\n\x60\x60\x60".toList) =
      Except.ok j ∧
    extractJsonFromText (p1 ++ s ++ p2) = Except.ok j := by
  have hp1brace : p1.all (fun c => c ≠ '\x7b') = true := by
    rw [List.all_eq_true] at hp1 ⊢
    intro c hc
    exact (Bool.and_eq_true_iff.mp (hp1 c hc)).1
  have hp1tick : p1.all (fun c => c ≠ '\x60') = true := by
    rw [List.all_eq_true] at hp1 ⊢
    intro c hc
    exact (Bool.and_eq_true_iff.mp (hp1 c hc)).2
  refine ⟨?_, ?_, ?_⟩
  · unfold extractJsonFromText
    rw [fencedCandidate_eq_none s hnb, braceCandidate_raw s s' hs hbal]
    exact hparse
  · unfold extractJsonFromText
    rw [fencedCandidate_fence s s' hs hbal hnb]
    exact hparse
  · have hall : (p1 ++ s ++ p2).all (fun c => c ≠ '\x60') = true := by
      rw [List.all_append, List.all_append]
      rw [hp1tick, hnb, hp2]
      rfl
    unfold extractJsonFromText
    rw [fencedCandidate_eq_none _ hall, braceCandidate_prose p1 s s' p2 hs hbal hp1brace]
    exact hparse

/-- Witness for C2 (amended) on `{"a": 1}` with prose
`Some notes: ... -- end`. -/
theorem extract_roundtrip_witness :
    (jsonLoads "\x7b\"a\": 1\x7d".toList = Except.ok (Json.obj [("a", Json.num 1 0)]) ∧
      braceScanSplit "\x7b\"a\": 1\x7d".toList 0 =
        some ("\x7b\"a\": 1\x7d".toList, [])) ∧
    (extractJsonFromText "\x7b\"a\": 1\x7d".toList =
        Except.ok (Json.obj [("a", Json.num 1 0)]) ∧
      extractJsonFromText ("\x60\x60\x60json\n".toList ++ "\x7b\"a\": 1\x7d".toList ++
        "\n\x60\x60\x60".toList) = Except.ok (Json.obj [("a", Json.num 1 0)]) ∧
      extractJsonFromText ("Some notes: ".toList ++ "\x7b\"a\": 1\x7d".toList ++
        " -- end".toList) = Except.ok (Json.obj [("a", Json.num 1 0)])) :=
  ⟨⟨rfl, rfl⟩,
    extract_roundtrip "\x7b\"a\": 1\x7d".toList "\"a\": 1\x7d".toList
      "Some notes: ".toList " -- end".toList (Json.obj [("a", Json.num 1 0)])
      rfl rfl rfl rfl rfl rfl rfl⟩

/-- Counterexample for C2 as stated ("surrounded by arbitrary prose"):
`{"a": 1}` is a well-formed JSON object, but with the prose
`note { ` in front — prose containing an unbalanced `{` — the brace
scan never returns to zero, no strategy yields a parseable candidate,
and extraction fails instead of returning the parsed object. -/
theorem extract_roundtrip_counterexample :
    jsonLoads "\x7b\"a\": 1\x7d".toList = Except.ok (Json.obj [("a", Json.num 1 0)]) ∧
    isOkObj (extractJsonFromText "note \x7b \x7b\"a\": 1\x7d".toList) = false :=
  ⟨rfl, rfl⟩

/-! ## C5 — URL validator -/

/-- No two consecutive hyphens ("single internal hyphens"). -/
def noDoubleHyphen : List Char → Bool
  | [] => true
  | c :: rest =>
    if c = '-' then
      match rest with
      | [] => true
      | c2 :: rest2 => !(c2 = '-') && noDoubleHyphen (c2 :: rest2)
    else noDoubleHyphen rest

/-- Owner rule in the words of the claim: non-empty, at most 39
characters, alphanumeric with hyphens, no leading or trailing hyphen,
and only single internal hyphens. -/
def specOwnerOk (o : List Char) : Bool :=
  !o.isEmpty && o.length ≤ 39 && o.all (fun c => isAlnumAscii c || c = '-') &&
    !decide (o.head? = some '-') && !decide (o.getLast? = some '-') && noDoubleHyphen o

/-- Repo rule as the counterexample forces it to be amended: non-empty,
at most 100 characters, alphanumerics/hyphens/underscores/periods, and
the first character must be *alphanumeric* (not merely "not a period or
hyphen" — a leading underscore is rejected too). -/
def specRepoOk (r : List Char) : Bool :=
  !r.isEmpty && r.length ≤ 100 && r.all isNameChar &&
    (match r with
     | [] => false
     | c :: _ => isAlnumAscii c)

/-- Repo rule in the original words of the claim: the first character
is only required not to be a period or a hyphen. -/
def claimRepoOk (r : List Char) : Bool :=
  !r.isEmpty && r.length ≤ 100 && r.all isNameChar &&
    (match r with
     | [] => false
     | c :: _ => !(c = '.' || c = '-'))

/-- The regex tail accepts exactly: hyphen-or-alphanumeric characters,
no double hyphen, no trailing hyphen. -/
theorem validNameTail_iff (l : List Char) :
    validNameTail l = true ↔
      (l.all (fun c => isAlnumAscii c || c = '-') = true ∧ noDoubleHyphen l = true ∧
        l.getLast? ≠ some '-') := by
  induction l with
  | nil => simp [validNameTail, noDoubleHyphen]
  | cons c rest ih =>
    by_cases hc : c = '-'
    · subst hc
      cases rest with
      | nil => simp [validNameTail, noDoubleHyphen]
      | cons c2 rest2 =>
        by_cases h2 : c2 = '-'
        · subst h2
          have hna : isAlnumAscii '-' = false := by decide
          simp [validNameTail, noDoubleHyphen, hna]
        · simp [validNameTail, noDoubleHyphen, List.all_cons,
            List.getLast?_cons_cons, ih, h2] <;> tauto
    · cases rest with
      | nil =>
        simp [validNameTail, hc, noDoubleHyphen, List.getLast?] <;> tauto
      | cons c2 rest2 =>
        simp [validNameTail, hc, noDoubleHyphen, List.all_cons,
          List.getLast?_cons_cons, ih] <;> tauto

/-- The claim's owner rule coincides with
`_is_valid_github_name`'s regex. -/
theorem spec_owner_iff (o : List Char) :
    specOwnerOk o = true ↔ is_valid_github_name o = true := by
  cases o with
  | nil => simp [specOwnerOk, is_valid_github_name]
  | cons c rest =>
    by_cases hc : c = '-'
    · subst hc
      have hna : isAlnumAscii '-' = false := by decide
      simp [specOwnerOk, is_valid_github_name, hna]
    · cases rest with
      | nil =>
        simp [specOwnerOk, is_valid_github_name, validNameTail, noDoubleHyphen, hc,
          List.getLast?] <;> tauto
      | cons c2 rest2 =>
        simp only [specOwnerOk, is_valid_github_name, List.all_cons, List.isEmpty_cons,
          Bool.not_false, List.head?_cons, List.getLast?_cons_cons, validNameTail_iff,
          Bool.and_eq_true, Bool.not_eq_true', decide_eq_false_iff_not]
        have hnd : noDoubleHyphen (c :: c2 :: rest2) = noDoubleHyphen (c2 :: rest2) := by
          rw [noDoubleHyphen, if_neg hc]
        rw [hnd]
        simp [hc]
        tauto

/-- The amended repo rule coincides with `_is_valid_repo_name`'s
regex. -/
theorem spec_repo_iff (r : List Char) :
    specRepoOk r = true ↔ is_valid_repo_name r = true := by
  cases r with
  | nil => simp [specRepoOk, is_valid_repo_name]
  | cons c rest =>
    simp [specRepoOk, is_valid_repo_name, List.all_cons, isNameChar]
    tauto

/-- A literal always strips off the front of itself. -/
theorem isPrefixOf_append_self (l r : List Char) : l.isPrefixOf (l ++ r) = true := by
  induction l with
  | nil => simp [List.isPrefixOf]
  | cons a as ih => simp [List.isPrefixOf, ih]

/-- `dropLit` on a text that starts with the literal returns the
remainder. -/
theorem dropLit_self (lit : String) (rest : List Char) :
    dropLit lit (lit.toList ++ rest) = some rest := by
  unfold dropLit
  rw [if_pos (isPrefixOf_append_self _ _)]
  have hlen : lit.length = lit.toList.length := rfl
  rw [hlen, List.drop_left]

/-- `dropLit` succeeds only on texts that start with the literal. -/
theorem dropLit_inv (lit : String) (cs rest : List Char)
    (h : dropLit lit cs = some rest) : cs = lit.toList ++ rest := by
  unfold dropLit at h
  by_cases hp : lit.toList.isPrefixOf cs = true
  · rw [if_pos hp] at h
    injection h with h
    obtain ⟨t, ht⟩ := List.isPrefixOf_iff_prefix.mp hp
    have hdrop : cs.drop lit.length = t := by
      rw [← ht]
      have hlen : lit.length = lit.toList.length := rfl
      rw [hlen, List.drop_left]
    rw [← ht, ← h, hdrop]
  · rw [if_neg hp] at h
    cases h

/-- Two texts that agree on a prefix and then differ are not in the
prefix relation. -/
theorem isPrefixOf_ne_at (pre : List Char) (a b : Char) (la lb : List Char) (h : a ≠ b) :
    (pre ++ a :: la).isPrefixOf (pre ++ b :: lb) = false := by
  induction pre with
  | nil =>
    have hbe : (a == b) = false := by
      cases hbeq : (a == b) with
      | false => rfl
      | true => exact absurd (eq_of_beq hbeq) h
    simp [List.isPrefixOf, hbe]
  | cons c pre' ih => simp [List.isPrefixOf, ih]

/-- The scheme prefix resolves deterministically: `https://` never
matches a text whose scheme is `http://`. -/
theorem dropLit_https_on_http (X : List Char) :
    dropLit "https://" ("http://".toList ++ X) = none := by
  unfold dropLit
  rw [if_neg ?_]
  have h1 : "https://".toList = "http".toList ++ 's' :: ':' :: '/' :: '/' :: [] := rfl
  have h2 : "http://".toList ++ X = "http".toList ++ ':' :: ('/' :: '/' :: X) := rfl
  rw [h1, h2, isPrefixOf_ne_at "http".toList 's' ':' _ _ (by decide)]
  exact Bool.false_ne_true

/-- The `www.` option resolves deterministically against
`github.com/`. -/
theorem dropLit_www_on_github (X : List Char) :
    dropLit "www." ("github.com/".toList ++ X) = none := by
  unfold dropLit
  rw [if_neg ?_]
  have h1 : "www.".toList = ([] : List Char) ++ 'w' :: 'w' :: 'w' :: '.' :: [] := rfl
  have h2 : "github.com/".toList ++ X =
      ([] : List Char) ++ 'g' :: ('i' :: 't' :: 'h' :: 'u' :: 'b' :: '.' :: 'c' :: 'o' ::
        'm' :: '/' :: X) := rfl
  rw [h1, h2, isPrefixOf_ne_at [] 'w' 'g' _ _ (by decide)]
  exact Bool.false_ne_true

/-- Completeness of the host-prefix strip after the scheme, `www.`
present. -/
theorem stripAfterScheme_www (rest : List Char) :
    stripAfterScheme ("www.".toList ++ ("github.com/".toList ++ rest)) = some rest := by
  unfold stripAfterScheme
  rw [dropLit_self "www."]
  exact dropLit_self "github.com/" rest

/-- Completeness of the host-prefix strip after the scheme, `www.`
absent. -/
theorem stripAfterScheme_github (rest : List Char) :
    stripAfterScheme ("github.com/".toList ++ rest) = some rest := by
  unfold stripAfterScheme
  rw [dropLit_www_on_github]
  exact dropLit_self "github.com/" rest

/-- Completeness of the prefix strip over the four scheme/`www.`
shapes. -/
theorem stripGithubPrefix_complete (pre : List Char)
    (hpre : pre = "https://".toList ∨ pre = "http://".toList ∨
      pre = "https://www.".toList ∨ pre = "http://www.".toList) (rest : List Char) :
    stripGithubPrefix (pre ++ ("github.com/".toList ++ rest)) = some rest := by
  rcases hpre with h | h | h | h <;> subst h
  · unfold stripGithubPrefix
    rw [dropLit_self "https://"]
    exact stripAfterScheme_github rest
  · unfold stripGithubPrefix
    rw [dropLit_https_on_http, dropLit_self "http://"]
    exact stripAfterScheme_github rest
  · unfold stripGithubPrefix
    rw [show ("https://www.".toList ++ ("github.com/".toList ++ rest)) =
      "https://".toList ++ ("www.".toList ++ ("github.com/".toList ++ rest)) from rfl]
    rw [dropLit_self "https://"]
    exact stripAfterScheme_www rest
  · unfold stripGithubPrefix
    rw [show ("http://www.".toList ++ ("github.com/".toList ++ rest)) =
      "http://".toList ++ ("www.".toList ++ ("github.com/".toList ++ rest)) from rfl]
    rw [dropLit_https_on_http, dropLit_self "http://"]
    exact stripAfterScheme_www rest

/-- Soundness of the host-prefix strip after the scheme. -/
theorem stripAfterScheme_inv (a rest : List Char) (h : stripAfterScheme a = some rest) :
    a = "www.".toList ++ ("github.com/".toList ++ rest) ∨
      a = "github.com/".toList ++ rest := by
  unfold stripAfterScheme at h
  cases h2 : dropLit "www." a with
  | some aw =>
    rw [h2] at h
    left
    rw [dropLit_inv "www." a aw h2, dropLit_inv "github.com/" aw rest h]
  | none =>
    rw [h2] at h
    right
    exact dropLit_inv "github.com/" a rest h

/-- Soundness of the prefix strip: a successful strip decomposes the
text into one of the four scheme/`www.` prefixes, the `github.com/`
literal and the remainder. -/
theorem stripGithubPrefix_inv (cs rest : List Char)
    (h : stripGithubPrefix cs = some rest) :
    ∃ pre, (pre = "https://".toList ∨ pre = "http://".toList ∨
      pre = "https://www.".toList ∨ pre = "http://www.".toList) ∧
      cs = pre ++ ("github.com/".toList ++ rest) := by
  unfold stripGithubPrefix at h
  cases h1 : dropLit "https://" cs with
  | some a =>
    rw [h1] at h
    have h' : stripAfterScheme a = some rest := h
    have hcs := dropLit_inv "https://" cs a h1
    rcases stripAfterScheme_inv a rest h' with ha | ha
    · refine ⟨"https://www.".toList, Or.inr (Or.inr (Or.inl rfl)), ?_⟩
      rw [hcs, ha]
      rfl
    · exact ⟨"https://".toList, Or.inl rfl, by rw [hcs, ha]⟩
  | none =>
    rw [h1] at h
    cases h2 : dropLit "http://" cs with
    | some a =>
      rw [h2] at h
      have h' : stripAfterScheme a = some rest := h
      have hcs := dropLit_inv "http://" cs a h2
      rcases stripAfterScheme_inv a rest h' with ha | ha
      · refine ⟨"http://www.".toList, Or.inr (Or.inr (Or.inr rfl)), ?_⟩
        rw [hcs, ha]
        rfl
      · exact ⟨"http://".toList, Or.inr (Or.inl rfl), by rw [hcs, ha]⟩
    | none =>
      rw [h2] at h
      cases h

/-- `takeWhile` passes over a block that satisfies `p` everywhere. -/
theorem takeWhile_append_all (p : Char → Bool) (l : List Char)
    (h : l.all p = true) (t : List Char) :
    (l ++ t).takeWhile p = l ++ t.takeWhile p := by
  induction l with
  | nil => rfl
  | cons a l' ih =>
    rw [List.all_cons] at h
    obtain ⟨hpa, hl'⟩ := Bool.and_eq_true_iff.mp h
    rw [List.cons_append, List.takeWhile_cons, if_pos hpa, List.cons_append, ih hl']

/-- The run and its complement around a failing separator. -/
theorem takeWhile_run (p : Char → Bool) (l : List Char) (h : l.all p = true)
    (post : List Char) (hpost : post = [] ∨ post = ['/']) (hp : p '/' = false) :
    (l ++ post).takeWhile p = l ∧ (l ++ post).dropWhile p = post := by
  rcases hpost with hp0 | hp0 <;> subst hp0
  · constructor
    · have := takeWhile_append_all p l h []
      simpa using this
    · have := dropWhile_append_all p l h []
      simpa using this
  · constructor
    · rw [takeWhile_append_all p l h, List.takeWhile_cons,
        if_neg (by rw [hp]; exact Bool.false_ne_true)]
      exact List.append_nil l
    · rw [dropWhile_append_all p l h, List.dropWhile_cons,
        if_neg (by rw [hp]; exact Bool.false_ne_true)]

/-- Completeness of the owner/repo part of the URL regex. -/
theorem matchOwnerRepo_complete (oc : Char) (o' : List Char) (rc : Char) (r' : List Char)
    (post : List Char) (hpost : post = [] ∨ post = ['/'])
    (hoc : isAlnumAscii oc = true) (ho : (oc :: o').all isNameChar = true)
    (hrc : isAlnumAscii rc = true) (hr : (rc :: r').all isNameChar = true) :
    matchOwnerRepo ((oc :: o') ++ '/' :: ((rc :: r') ++ post)) =
      some (oc :: o', rc :: r') := by
  have hslash : isNameChar '/' = false := by decide
  have htake1 : ((oc :: o') ++ '/' :: ((rc :: r') ++ post)).takeWhile isNameChar =
      oc :: o' := by
    rw [takeWhile_append_all _ _ ho, List.takeWhile_cons,
      if_neg (by rw [hslash]; exact Bool.false_ne_true)]
    exact List.append_nil _
  have hdrop1 : ((oc :: o') ++ '/' :: ((rc :: r') ++ post)).dropWhile isNameChar =
      '/' :: ((rc :: r') ++ post) := by
    rw [dropWhile_append_all _ _ ho, List.dropWhile_cons,
      if_neg (by rw [hslash]; exact Bool.false_ne_true)]
  obtain ⟨htake2, hdrop2⟩ := takeWhile_run isNameChar (rc :: r') hr post hpost hslash
  unfold matchOwnerRepo
  rw [htake1, hdrop1]
  show splitOwner (oc :: o') ('/' :: ((rc :: r') ++ post)) = some (oc :: o', rc :: r')
  rw [splitOwner, if_pos hoc]
  show splitRepo (oc :: o') (((rc :: r') ++ post).takeWhile isNameChar)
    (((rc :: r') ++ post).dropWhile isNameChar) = some (oc :: o', rc :: r')
  rw [htake2, hdrop2]
  rcases hpost with hp0 | hp0 <;> subst hp0 <;> rw [splitRepo, if_pos hrc]

/-- Soundness of the repo half. -/
theorem splitRepo_inv (owner repo r4 o r : List Char)
    (h : splitRepo owner repo r4 = some (o, r)) :
    o = owner ∧ r = repo ∧ (r4 = [] ∨ r4 = ['/']) ∧
      ∃ rc r', repo = rc :: r' ∧ isAlnumAscii rc = true := by
  cases repo with
  | nil => simp [splitRepo] at h
  | cons rc r' =>
    have hrc : isAlnumAscii rc = true := by
      by_cases hrc : isAlnumAscii rc = true
      · exact hrc
      · exfalso
        rcases r4 with _ | ⟨c, _ | ⟨c2, rest2⟩⟩ <;>
          simp [splitRepo, hrc] at h
    rcases r4 with _ | ⟨c, _ | ⟨c2, rest2⟩⟩
    · rw [splitRepo, if_pos hrc] at h
      injection h with h
      injection h with h1 h2
      exact ⟨h1.symm, h2.symm, Or.inl rfl, rc, r', rfl, hrc⟩
    · by_cases hc : c = '/'
      · subst hc
        rw [splitRepo, if_pos hrc] at h
        injection h with h
        injection h with h1 h2
        exact ⟨h1.symm, h2.symm, Or.inr rfl, rc, r', rfl, hrc⟩
      · exfalso
        simp [splitRepo, hrc, hc] at h
    · exfalso
      simp [splitRepo, hrc] at h

/-- Soundness of the owner half. -/
theorem splitOwner_inv (owner rest2 o r : List Char)
    (h : splitOwner owner rest2 = some (o, r)) :
    ∃ oc o' rest3, owner = oc :: o' ∧ isAlnumAscii oc = true ∧ rest2 = '/' :: rest3 ∧
      splitRepo owner (rest3.takeWhile isNameChar) (rest3.dropWhile isNameChar) =
        some (o, r) := by
  cases owner with
  | nil => simp [splitOwner] at h
  | cons oc o' =>
    have hoc : isAlnumAscii oc = true := by
      by_cases hoc : isAlnumAscii oc = true
      · exact hoc
      · exfalso
        rcases rest2 with _ | ⟨c, rest3⟩ <;> simp [splitOwner, hoc] at h
    rcases rest2 with _ | ⟨c, rest3⟩
    · exfalso
      simp [splitOwner, hoc] at h
    · by_cases hc : c = '/'
      · subst hc
        rw [splitOwner, if_pos hoc] at h
        exact ⟨oc, o', rest3, rfl, hoc, rfl, h⟩
      · exfalso
        simp [splitOwner, hoc, hc] at h

/-- Soundness of the owner/repo matcher: a successful match decomposes
the path into the two name-character runs, an alphanumeric first
character each, and an optional trailing slash. -/
theorem matchOwnerRepo_inv (rest o r : List Char)
    (h : matchOwnerRepo rest = some (o, r)) :
    ∃ post, (post = [] ∨ post = ['/']) ∧ rest = o ++ '/' :: (r ++ post) ∧
      o.all isNameChar = true ∧ r.all isNameChar = true ∧
      (∃ oc o', o = oc :: o' ∧ isAlnumAscii oc = true) ∧
      (∃ rc r', r = rc :: r' ∧ isAlnumAscii rc = true) := by
  unfold matchOwnerRepo at h
  obtain ⟨oc, o', rest3, howner, hoc, hsplit, hrepo⟩ :=
    splitOwner_inv (rest.takeWhile isNameChar) (rest.dropWhile isNameChar) o r h
  obtain ⟨ho, hr, hpost, rc, r', hrepo_eq, hrc⟩ :=
    splitRepo_inv (rest.takeWhile isNameChar) (rest3.takeWhile isNameChar)
      (rest3.dropWhile isNameChar) o r hrepo
  refine ⟨rest3.dropWhile isNameChar, hpost, ?_, ?_, ?_, ?_, ?_⟩
  · have hdec : rest = rest.takeWhile isNameChar ++ rest.dropWhile isNameChar :=
      (List.takeWhile_append_dropWhile isNameChar rest).symm
    have hdec3 : rest3 = rest3.takeWhile isNameChar ++ rest3.dropWhile isNameChar :=
      (List.takeWhile_append_dropWhile isNameChar rest3).symm
    have h3 : rest3 = r ++ rest3.dropWhile isNameChar := by
      conv_lhs => rw [hdec3]
      rw [← hr]
    rw [hdec, hsplit, ← ho]
    conv_lhs => rw [h3]
  · rw [ho]
    rw [List.all_eq_true]
    intro x hx
    exact List.mem_takeWhile_imp hx
  · rw [hr]
    rw [List.all_eq_true]
    intro x hx
    exact List.mem_takeWhile_imp hx
  · exact ⟨oc, o', by rw [ho, howner], hoc⟩
  · exact ⟨rc, r', by rw [hr, hrepo_eq], hrc⟩

/-- The claim's URL shape: after stripping, the text is one of the four
scheme/`www.` prefixes, the `github.com/` host path, the owner segment,
a slash, the repo segment and an optional trailing slash. -/
def specUrlForm (cs owner repo : List Char) : Prop :=
  ∃ pre post : List Char,
    (pre = "https://".toList ∨ pre = "http://".toList ∨
      pre = "https://www.".toList ∨ pre = "http://www.".toList) ∧
    (post = [] ∨ post = ['/']) ∧
    cs = pre ++ ("github.com/".toList ++ (owner ++ '/' :: (repo ++ post)))

/-- Characters allowed in an owner by the claim's rule are name
characters. -/
theorem ownerChar_nameChar (o : List Char)
    (h : o.all (fun c => isAlnumAscii c || c = '-') = true) :
    o.all isNameChar = true := by
  rw [List.all_eq_true] at h ⊢
  intro x hx
  have := h x hx
  rw [Bool.or_eq_true] at this
  rcases this with h' | h' <;> simp [isNameChar, h']

/-- Completeness of the full URL matcher against the claim's shape. -/
theorem matchGithubUrl_complete (cs owner repo : List Char)
    (hform : specUrlForm cs owner repo)
    (howner : specOwnerOk owner = true) (hrepo : specRepoOk repo = true) :
    matchGithubUrl cs = some (owner, repo) := by
  obtain ⟨pre, post, hpre, hpost, hcs⟩ := hform
  cases owner with
  | nil => simp [specOwnerOk] at howner
  | cons oc o' =>
    cases repo with
    | nil => simp [specRepoOk] at hrepo
    | cons rc r' =>
      simp only [specOwnerOk, Bool.and_eq_true, List.head?_cons, Bool.not_eq_true',
        decide_eq_false_iff_not] at howner
      simp only [specRepoOk, Bool.and_eq_true] at hrepo
      have hoall : (oc :: o').all isNameChar = true :=
        ownerChar_nameChar _ howner.1.1.1.2
      have hoc : isAlnumAscii oc = true := by
        have hch := howner.1.1.1.2
        rw [List.all_cons] at hch
        obtain ⟨hc1, -⟩ := Bool.and_eq_true_iff.mp hch
        rw [Bool.or_eq_true] at hc1
        rcases hc1 with h' | h'
        · exact h'
        · exact absurd (of_decide_eq_true h') (fun he => howner.1.1.2 (by rw [he]))
      have hrc : isAlnumAscii rc = true := hrepo.2
      have hrall : (rc :: r').all isNameChar = true := hrepo.1.2
      rw [hcs]
      unfold matchGithubUrl
      rw [stripGithubPrefix_complete pre hpre]
      exact matchOwnerRepo_complete oc o' rc r' post hpost hoc hoall hrc hrall

/-- Soundness of the full URL matcher. -/
theorem matchGithubUrl_inv (cs owner repo : List Char)
    (h : matchGithubUrl cs = some (owner, repo)) :
    specUrlForm cs owner repo ∧ owner.all isNameChar = true ∧
      repo.all isNameChar = true := by
  unfold matchGithubUrl at h
  cases hstrip : stripGithubPrefix cs with
  | none => rw [hstrip] at h; cases h
  | some rest =>
    rw [hstrip] at h
    obtain ⟨pre, hpre, hcs⟩ := stripGithubPrefix_inv cs rest hstrip
    obtain ⟨post, hpost, hrest, ho, hr, -, -⟩ := matchOwnerRepo_inv rest owner repo h
    exact ⟨⟨pre, post, hpre, hpost, by rw [hcs, hrest]⟩, ho, hr⟩

/-- C5 (amended): `validate_url` returns `is_valid=true` with exactly
the owner and repo substrings for every URL that, after stripping
surrounding whitespace, has the form
`http(s)://(www.)?github.com/{owner}/{repo}(/)?` where the owner is
alphanumeric with single internal hyphens (≤ 39 chars, no leading or
trailing hyphen) and the repo consists of alphanumerics, hyphens,
underscores and periods (≤ 100 chars) *starting with an alphanumeric*;
every other input yields `is_valid=false` with an error message, which
names the offending field when the URL matches the pattern but a name
violates its rule. -/
theorem validate_url_spec (url : String) :
    (∀ owner repo, specUrlForm (pyStrip url.data) owner repo →
      specOwnerOk owner = true → specRepoOk repo = true →
      validate_url url = ⟨true, some ⟨owner⟩, some ⟨repo⟩, none⟩) ∧
    ((validate_url url).is_valid = true →
      ∃ owner repo, validate_url url = ⟨true, some ⟨owner⟩, some ⟨repo⟩, none⟩ ∧
        specUrlForm (pyStrip url.data) owner repo ∧ specOwnerOk owner = true ∧
        specRepoOk repo = true) ∧
    ((validate_url url).is_valid = false →
      (validate_url url).error_message.isSome = true) ∧
    (∀ owner repo, matchGithubUrl (pyStrip url.data) = some (owner, repo) →
      is_valid_github_name owner = false →
      (validate_url url).error_message =
        some ("Invalid GitHub username: " ++ ⟨owner⟩)) ∧
    (∀ owner repo, matchGithubUrl (pyStrip url.data) = some (owner, repo) →
      is_valid_github_name owner = true → is_valid_repo_name repo = false →
      (validate_url url).error_message =
        some ("Invalid GitHub repository name: " ++ ⟨repo⟩)) := by
  refine ⟨?_, ?_, ?_, ?_, ?_⟩
  · intro owner repo hform ho hr
    have hmatch : matchGithubUrl (pyStrip url.data) = some (owner, repo) :=
      matchGithubUrl_complete _ _ _ hform ho hr
    have hurl_ne : ¬ url.data = [] := by
      intro hd
      obtain ⟨pre, post, hpre, hpost, hcs⟩ := hform
      rw [hd] at hcs
      rw [show pyStrip [] = [] from rfl] at hcs
      rcases hpre with h | h | h | h <;> subst h <;> simp at hcs
    have hvo : is_valid_github_name owner = true := (spec_owner_iff owner).mp ho
    have hvr : is_valid_repo_name repo = true := (spec_repo_iff repo).mp hr
    simp [validate_url, hurl_ne, hmatch, hvo, hvr]
  · intro hvalid
    by_cases hd : url.data = []
    · simp [validate_url, hd] at hvalid
    · cases hm : matchGithubUrl (pyStrip url.data) with
      | none => simp [validate_url, hd, hm] at hvalid
      | some pr =>
        obtain ⟨owner, repo⟩ := pr
        by_cases hvo : is_valid_github_name owner = true
        · by_cases hvr : is_valid_repo_name repo = true
          · refine ⟨owner, repo, by simp [validate_url, hd, hm, hvo, hvr],
              (matchGithubUrl_inv _ _ _ hm).1, (spec_owner_iff owner).mpr hvo,
              (spec_repo_iff repo).mpr hvr⟩
          · exfalso
            simp [validate_url, hd, hm, hvo, hvr] at hvalid
        · exfalso
          simp [validate_url, hd, hm, hvo] at hvalid
  · intro hinv
    by_cases hd : url.data = []
    · simp [validate_url, hd]
    · cases hm : matchGithubUrl (pyStrip url.data) with
      | none => simp [validate_url, hd, hm]
      | some pr =>
        obtain ⟨owner, repo⟩ := pr
        by_cases hvo : is_valid_github_name owner = true
        · by_cases hvr : is_valid_repo_name repo = true
          · exfalso
            simp [validate_url, hd, hm, hvo, hvr] at hinv
          · simp [validate_url, hd, hm, hvo, hvr]
        · simp [validate_url, hd, hm, hvo]
  · intro owner repo hm hvo
    by_cases hd : url.data = []
    · rw [hd] at hm
      rw [show matchGithubUrl (pyStrip []) = none from rfl] at hm
      cases hm
    · simp [validate_url, hd, hm, hvo]
  · intro owner repo hm hvo hvr
    by_cases hd : url.data = []
    · rw [hd] at hm
      rw [show matchGithubUrl (pyStrip []) = none from rfl] at hm
      cases hm
    · simp [validate_url, hd, hm, hvo, hvr]

/-- Witness for C5 (amended) on a concrete valid URL. -/
theorem validate_url_spec_witness :
    (specUrlForm (pyStrip "https://github.com/linzeyang/hack-a-gallery".data)
        "linzeyang".data "hack-a-gallery".data ∧
      specOwnerOk "linzeyang".data = true ∧ specRepoOk "hack-a-gallery".data = true) ∧
    validate_url "https://github.com/linzeyang/hack-a-gallery" =
      ⟨true, some "linzeyang", some "hack-a-gallery", none⟩ :=
  ⟨⟨⟨"https://".toList, [], Or.inl rfl, Or.inl rfl, rfl⟩, rfl, rfl⟩,
    (validate_url_spec "https://github.com/linzeyang/hack-a-gallery").1
      "linzeyang".data "hack-a-gallery".data
      ⟨"https://".toList, [], Or.inl rfl, Or.inl rfl, rfl⟩ rfl rfl⟩

/-- Counterexample for C5 as stated: `_repo` satisfies the claim's repo
rule (charset ok, not starting with a period or hyphen), `abc` is a
valid owner, and `https://github.com/abc/_repo` has the claimed URL
shape — yet `validate_url` rejects it, because the regex requires the
repo to start with an *alphanumeric* and a leading underscore fails the
whole pattern. -/
theorem validate_url_spec_counterexample :
    claimRepoOk "_repo".data = true ∧ specOwnerOk "abc".data = true ∧
    specUrlForm (pyStrip "https://github.com/abc/_repo".data) "abc".data "_repo".data ∧
    (validate_url "https://github.com/abc/_repo").is_valid = false :=
  ⟨rfl, rfl, ⟨"https://".toList, [], Or.inl rfl, Or.inl rfl, rfl⟩, rfl⟩
